import Mathlib

/-!
# Verification of the profiler-output parser of `device_profiling/torchscript.py`

This file shallowly embeds the two algorithmic functions of the repository,
`parse_profiler_output` (source lines 209-253) and `set_bit` (lines 52-61),
and proves the specification's claims about them.

Modelling conventions:

* A Python `str` is modelled as `List Char`; `str.replace`, `str.split` and
  the `in` operator are modelled by the executable functions `replaceSub`,
  `splitOnL` and `containsSub` below, which reproduce Python's
  leftmost, non-overlapping occurrence semantics.
* Python floats are modelled exactly over `ℚ`: the statistical claims of the
  spec ("avg equals the arithmetic mean") are read in exact arithmetic.
  The single irrational step, `np.std`'s final square root, is exposed as the
  real-valued projection `ProfileSummary.std` of the exactly-stored variance.
* The code fails by raising built-in Python exceptions at six distinct
  program points.  The embedding's `ParseError` has one constructor per
  failure site; each constructor's doc string records the Python exception
  class and the error kind the specification's taxonomy assigns to the site.
-/

set_option maxRecDepth 100000

/-! ## String toolkit -/

/-- `leadsWith p l` is true when the word `p` is an initial segment of `l`
(character-wise).  This is the primitive used to locate occurrences of a
separator, as Python's `str.find`/`str.split`/`str.replace` do. -/
def leadsWith : List Char → List Char → Bool
  | [], _ => true
  | _ :: _, [] => false
  | a :: as, b :: bs => if a = b then leadsWith as bs else false

/-- `breakOnSub sep l` finds the first occurrence of `sep` in `l`, returning
the part before it and the part after it, or `none` when `sep` does not
occur. -/
def breakOnSub (sep : List Char) : List Char → Option (List Char × List Char)
  | [] => if sep = [] then some ([], []) else none
  | c :: rest =>
    if leadsWith sep (c :: rest) then some ([], (c :: rest).drop sep.length)
    else
      match breakOnSub sep rest with
      | none => none
      | some (pre, post) => some (c :: pre, post)

/-- Fuel-indexed worker for `splitOnL`: each found occurrence strictly
shortens the remaining text (the separators of the source are non-empty), so
the `length + 1` fuel supplied by `splitOnL` is never exhausted. -/
def splitOnF (sep : List Char) : Nat → List Char → List (List Char)
  | 0, l => [l]
  | fuel + 1, l =>
    match breakOnSub sep l with
    | none => [l]
    | some (pre, post) => pre :: splitOnF sep fuel post

/-- Python `str.split(sep)`: split on every (leftmost, non-overlapping)
occurrence of `sep`.  Python raises `ValueError` on an empty separator; the
separators used by the source are all non-empty. -/
def splitOnL (sep l : List Char) : List (List Char) := splitOnF sep (l.length + 1) l

/-- Fuel-indexed worker for `replaceSub`, on the same plan as `splitOnF`. -/
def replaceSubF (sep repl : List Char) : Nat → List Char → List Char
  | 0, l => l
  | fuel + 1, l =>
    match breakOnSub sep l with
    | none => l
    | some (pre, post) => pre ++ repl ++ replaceSubF sep repl fuel post

/-- Python `str.replace(sep, repl)`: replace every (leftmost,
non-overlapping) occurrence of `sep` by `repl`.  The empty-separator case is
never exercised by the source. -/
def replaceSub (sep repl l : List Char) : List Char := replaceSubF sep repl (l.length + 1) l

/-- Python's `sub in s` substring test. -/
def containsSub (sep l : List Char) : Bool := (breakOnSub sep l).isSome

/-- The segment of `l` before the first occurrence of `sep` (all of `l` when
`sep` does not occur): the value of Python's `l.split(sep)[0]`. -/
def takeUntil (sep l : List Char) : List Char :=
  match breakOnSub sep l with
  | none => l
  | some (pre, _) => pre

/-! ## JSON values and `json.loads` -/

/-- JSON values as produced by Python's `json.loads`.  Python's `int`/`float`
distinction for numbers is collapsed into exact `ℚ` values, and objects keep
their raw field list in document order (duplicate keys are resolved at lookup
time, taking the last occurrence, as Python's dict construction does). -/
inductive Json where
  | null
  | bool (b : Bool)
  | num (q : ℚ)
  | str (s : List Char)
  | arr (elems : List Json)
  | obj (fields : List (List Char × Json))

mutual

/-- Python `==` on values produced by `json.loads`.  Python compares booleans
and numbers numerically (`True == 1` holds); values of different kinds are
unequal.  Dictionaries are compared field-list-wise here (Python's dict
equality ignores insertion order); the parser only ever compares the `unit`
fields, which are not dictionaries in any profiler output. -/
def pyEq : Json → Json → Bool
  | Json.null, Json.null => true
  | Json.bool a, Json.bool b => a == b
  | Json.bool a, Json.num b => (if a then (1 : ℚ) else 0) == b
  | Json.num a, Json.bool b => a == (if b then (1 : ℚ) else 0)
  | Json.num a, Json.num b => a == b
  | Json.str a, Json.str b => a == b
  | Json.arr a, Json.arr b => pyEqList a b
  | Json.obj a, Json.obj b => pyEqFields a b
  | _, _ => false

/-- Elementwise Python `==` on lists. -/
def pyEqList : List Json → List Json → Bool
  | [], [] => true
  | a :: as, b :: bs => pyEq a b && pyEqList as bs
  | _, _ => false

/-- Fieldwise Python `==` on object field lists. -/
def pyEqFields : List (List Char × Json) → List (List Char × Json) → Bool
  | [], [] => true
  | (k, v) :: as, (k', v') :: bs => k == k' && pyEq v v' && pyEqFields as bs
  | _, _ => false

end

/-- JSON inter-token whitespace, as skipped by Python's json scanner. -/
def skipWs : List Char → List Char
  | c :: rest =>
    if c == ' ' || c == '\t' || c == '\n' || c == '\r' then skipWs rest
    else c :: rest
  | [] => []

/-- Value of a hexadecimal digit, for `\uXXXX` escapes. -/
def hexVal (c : Char) : Option Nat :=
  if c.isDigit then some (c.toNat - 48)
  else if 'a' ≤ c && c ≤ 'f' then some (c.toNat - 87)
  else if 'A' ≤ c && c ≤ 'F' then some (c.toNat - 55)
  else none

/-- The single-character JSON string escapes. -/
def escChar : Char → Option Char
  | '"' => some '"'
  | '\\' => some '\\'
  | '/' => some '/'
  | 'b' => some (Char.ofNat 8)
  | 'f' => some (Char.ofNat 12)
  | 'n' => some '\n'
  | 'r' => some '\r'
  | 't' => some '\t'
  | _ => none

/-- JSON string body after the opening quote: literal characters up to the
closing quote, with escape processing; unescaped control characters are
rejected, as in Python's strict mode.  (Surrogate-pair `\u` escapes are
decoded pointwise, a restriction irrelevant to profiler outputs.) -/
def parseJString : List Char → Option (List Char × List Char)
  | [] => none
  | c :: rest =>
    if c = '"' then some ([], rest)
    else if c = '\\' then
      match rest with
      | 'u' :: h1 :: h2 :: h3 :: h4 :: rest' => do
        let a ← hexVal h1
        let b ← hexVal h2
        let cc ← hexVal h3
        let d ← hexVal h4
        let (s, r) ← parseJString rest'
        some (Char.ofNat (((a * 16 + b) * 16 + cc) * 16 + d) :: s, r)
      | e :: rest' => do
        let ce ← escChar e
        let (s, r) ← parseJString rest'
        some (ce :: s, r)
      | [] => none
    else if c.toNat < 32 then none
    else do
      let (s, r) ← parseJString rest
      some (c :: s, r)

/-- Numeric value of a digit character. -/
def digitVal (c : Char) : Nat := c.toNat - 48

/-- Value of a digit string, most significant first. -/
def digitsToNat (l : List Char) : Nat := l.foldl (fun acc c => 10 * acc + digitVal c) 0

/-- Exact value of a decimal literal `[-]ip[.fp][e[-]ed]`. -/
def litVal (neg : Bool) (ip fp : List Char) (eneg : Bool) (ed : List Char) : ℚ :=
  let mag : ℚ := (digitsToNat ip : ℚ) + (digitsToNat fp : ℚ) / (10 : ℚ) ^ fp.length
  let scaled : ℚ :=
    if eneg then mag / (10 : ℚ) ^ digitsToNat ed else mag * (10 : ℚ) ^ digitsToNat ed
  if neg then -scaled else scaled

/-- A JSON number, per the scanner's regular expression
`(-?(?:0|[1-9]\d*))(\.\d+)?([eE][-+]?\d+)?`: the optional fraction and
exponent groups only match when complete, otherwise the number ends before
them (and the leftover text fails at the enclosing level, as in Python). -/
def parseJNumber (l : List Char) : Option (ℚ × List Char) :=
  let (neg, l1) : Bool × List Char :=
    match l with
    | '-' :: r => (true, r)
    | _ => (false, l)
  match l1 with
  | [] => none
  | c :: r1 =>
    if !c.isDigit then none
    else
      let (ip, r2) : List Char × List Char :=
        if c == '0' then ([c], r1)
        else (c :: r1.takeWhile Char.isDigit, r1.dropWhile Char.isDigit)
      let (fp, r3) : List Char × List Char :=
        match r2 with
        | '.' :: d :: rest =>
          if d.isDigit then (d :: rest.takeWhile Char.isDigit, rest.dropWhile Char.isDigit)
          else ([], r2)
        | _ => ([], r2)
      let (eneg, ed, r4) : Bool × List Char × List Char :=
        match r3 with
        | e :: '+' :: d :: rest =>
          if (e == 'e' || e == 'E') && d.isDigit then
            (false, d :: rest.takeWhile Char.isDigit, rest.dropWhile Char.isDigit)
          else (false, [], r3)
        | e :: '-' :: d :: rest =>
          if (e == 'e' || e == 'E') && d.isDigit then
            (true, d :: rest.takeWhile Char.isDigit, rest.dropWhile Char.isDigit)
          else (false, [], r3)
        | e :: d :: rest =>
          if (e == 'e' || e == 'E') && d.isDigit then
            (false, d :: rest.takeWhile Char.isDigit, rest.dropWhile Char.isDigit)
          else (false, [], r3)
        | _ => (false, [], r3)
      some (litVal neg ip fp eneg ed, r4)

mutual

/-- The recursive value scanner of `json.loads`, fuel-indexed: `fuel` bounds
the recursive descent (each level consumes at least one bracket character, so
the `input length + 1` supplied by `json_loads` is ample). -/
def parseJValue : Nat → List Char → Option (Json × List Char)
  | 0, _ => none
  | fuel + 1, l =>
    match skipWs l with
    | [] => none
    | c :: rest =>
      if c == '"' then
        match parseJString rest with
        | some (s, r) => some (Json.str s, r)
        | none => none
      else if c == '[' then
        match skipWs rest with
        | [] => none
        | d :: r =>
          if d == ']' then some (Json.arr [], r)
          else
            match parseJItems fuel (d :: r) with
            | some (vs, r') => some (Json.arr vs, r')
            | none => none
      else if c == '\x7b' then
        match skipWs rest with
        | [] => none
        | d :: r =>
          if d == '\x7d' then some (Json.obj [], r)
          else
            match parseJFields fuel (d :: r) with
            | some (fs, r') => some (Json.obj fs, r')
            | none => none
      else if c == 't' then
        if leadsWith ['r', 'u', 'e'] rest then some (Json.bool true, rest.drop 3) else none
      else if c == 'f' then
        if leadsWith ['a', 'l', 's', 'e'] rest then some (Json.bool false, rest.drop 4) else none
      else if c == 'n' then
        if leadsWith ['u', 'l', 'l'] rest then some (Json.null, rest.drop 3) else none
      else
        match parseJNumber (c :: rest) with
        | some (q, r) => some (Json.num q, r)
        | none => none

/-- Comma-separated array elements up to the closing bracket. -/
def parseJItems : Nat → List Char → Option (List Json × List Char)
  | 0, _ => none
  | fuel + 1, l =>
    match parseJValue fuel l with
    | none => none
    | some (v, r) =>
      match skipWs r with
      | [] => none
      | d :: r' =>
        if d == ',' then
          match parseJItems fuel r' with
          | some (vs, r'') => some (v :: vs, r'')
          | none => none
        else if d == ']' then some ([v], r')
        else none

/-- Comma-separated `"key": value` members up to the closing brace. -/
def parseJFields : Nat → List Char → Option (List (List Char × Json) × List Char)
  | 0, _ => none
  | fuel + 1, l =>
    match skipWs l with
    | [] => none
    | c :: r =>
      if c == '"' then
        match parseJString r with
        | none => none
        | some (k, r1) =>
          match skipWs r1 with
          | [] => none
          | d :: r2 =>
            if d == ':' then
              match parseJValue fuel r2 with
              | none => none
              | some (v, r3) =>
                match skipWs r3 with
                | [] => none
                | e :: r4 =>
                  if e == ',' then
                    match parseJFields fuel r4 with
                    | some (fs, r5) => some ((k, v) :: fs, r5)
                    | none => none
                  else if e == '\x7d' then some ([(k, v)], r4)
                  else none
            else none
      else none

end

/-- `json.loads`: parse one JSON document and require nothing but whitespace
after it.  (`NaN`/`Infinity` literals and deeply nested documents whose
recursion exceeds the fuel are not modelled; neither occurs in any profiler
output or in any input of the claims.) -/
def json_loads (l : List Char) : Option Json :=
  match parseJValue (l.length + 1) l with
  | some (j, rest) => if skipWs rest = [] then some j else none
  | none => none

/-! ## Python coercions and lookups -/

/-- Whitespace stripped by Python's `float(str)`. -/
def isPySpace (c : Char) : Bool :=
  c == ' ' || c == '\t' || c == '\n' || c == '\r' || c == '\x0b' || c == '\x0c'

/-- Python `str.strip()` of surrounding whitespace. -/
def pyStrip (l : List Char) : List Char :=
  ((l.dropWhile isPySpace).reverse.dropWhile isPySpace).reverse

/-- Python `float(str)` on decimal literals: optional surrounding whitespace,
optional sign, an integer and/or fractional digit group around an optional
point, and an optional signed exponent.  (`inf`/`nan` and digit-group
underscores are not modelled: their values have no exact `ℚ` counterpart or
do not occur in profiler output.) -/
def parseFloatLit (s : List Char) : Option ℚ :=
  let s1 := pyStrip s
  let (neg, s2) : Bool × List Char :=
    match s1 with
    | '-' :: r => (true, r)
    | '+' :: r => (false, r)
    | _ => (false, s1)
  let ip := s2.takeWhile Char.isDigit
  let r1 := s2.dropWhile Char.isDigit
  let (mantOk, fp, r2) : Bool × List Char × List Char :=
    match r1 with
    | '.' :: r =>
      (!ip.isEmpty || !(r.takeWhile Char.isDigit).isEmpty,
        r.takeWhile Char.isDigit, r.dropWhile Char.isDigit)
    | _ => (!ip.isEmpty, [], r1)
  if !mantOk then none
  else
    match r2 with
    | [] => some (litVal neg ip fp false [])
    | e :: r3 =>
      if e == 'e' || e == 'E' then
        let (eneg, r4) : Bool × List Char :=
          match r3 with
          | '-' :: r => (true, r)
          | '+' :: r => (false, r)
          | _ => (false, r3)
        let ed := r4.takeWhile Char.isDigit
        let r5 := r4.dropWhile Char.isDigit
        if ed.isEmpty || !r5.isEmpty then none
        else some (litVal neg ip fp eneg ed)
      else none

/-- The parser's failure sites, one constructor per raising program point of
`parse_profiler_output`.  The doc string of each constructor names the Python
exception class raised there and the error kind the specification's taxonomy
(§7) assigns to the site. -/
inductive ParseError where
  /-- Line 233, `assert '\nMain runs.\n' in data` fails: a bare
  `AssertionError`; `MalformedOutputError` in the spec's taxonomy. -/
  | missingMarker
  /-- Line 234, `data.split('\nMain runs.\nPyTorchObserver')[1]` on a split
  with a single part: `IndexError`; `MalformedOutputError` in the spec. -/
  | missingDelimiter
  /-- Line 242, `json.loads` rejects the reconstructed text:
  `json.JSONDecodeError`; `MalformedOutputError` in the spec. -/
  | jsonError
  /-- Line 245, `main_results[0]` on an empty array: `IndexError`;
  `EmptyResultError` in the spec's taxonomy. -/
  | emptyResults
  /-- Lines 245-248, `elem['unit']` / `elem['value']` on a non-dict element:
  `TypeError`; `MalformedOutputError` in the spec. -/
  | notADict
  /-- Lines 245-248, `elem[k]` on a dict lacking key `k`: `KeyError(k)`;
  `MalformedOutputError` in the spec. -/
  | missingKey (k : List Char)
  /-- Line 247, `assert elem['unit'] == unit` fails: a bare `AssertionError`;
  `InconsistentUnitError` in the spec's taxonomy. -/
  | unitMismatch
  /-- Line 248, `float(elem['value'])` on a non-numeric value: `ValueError`
  (or `TypeError`); `MalformedOutputError` in the spec. -/
  | badValue
deriving DecidableEq

/-- The data carried by each error value, mirroring the arguments of the
Python exception raised at the corresponding site: `KeyError` carries the
missing key; every other exception of the parser — in particular the bare
`assert` statements of lines 233 and 247 — is raised without arguments. -/
def ParseError.payload : ParseError → List (List Char)
  | ParseError.missingKey k => [k]
  | _ => []

/-- Python `elem[key]` lookup on a `json.loads` object value: `json.loads`
keeps the last of duplicate keys, hence the last matching field wins. -/
def pyLookup (fields : List (List Char × Json)) (k : List Char) : Option Json :=
  (fields.filterMap fun kv => if kv.1 == k then some kv.2 else none).getLast?

/-- Python `elem[key]` on a `json.loads` value: `TypeError` when `elem` is
not a dict, `KeyError` when the key is absent. -/
def pyGetKey (elem : Json) (k : List Char) : Except ParseError Json :=
  match elem with
  | Json.obj fields =>
    match pyLookup fields k with
    | some v => Except.ok v
    | none => Except.error (ParseError.missingKey k)
  | _ => Except.error ParseError.notADict

/-- Python `float(v)` on a `json.loads` value: numbers pass through, numeric
strings are parsed, booleans coerce to `1`/`0`; anything else raises
(`TypeError`/`ValueError`, collapsed into `badValue`). -/
def pyFloat : Json → Except ParseError ℚ
  | Json.num q => Except.ok q
  | Json.str s =>
    match parseFloatLit s with
    | some q => Except.ok q
    | none => Except.error ParseError.badValue
  | Json.bool b => Except.ok (if b then 1 else 0)
  | _ => Except.error ParseError.badValue

/-! ## Statistics (`np.mean`, `np.std`) in exact arithmetic -/

/-- `np.mean`: the arithmetic mean. -/
def mean (vs : List ℚ) : ℚ := vs.sum / vs.length

/-- The population variance (`np.var`, denominator `N`, not `N - 1`);
`np.std` is its square root. -/
def popVar (vs : List ℚ) : ℚ := (vs.map fun v => (v - mean vs) ^ 2).sum / vs.length

/-- `np.std`: the population standard deviation, the nonnegative real square
root of the population variance. -/
noncomputable def popStd (vs : List ℚ) : ℝ := Real.sqrt (popVar vs)

/-- The parser's result dictionary `{'unit': ..., 'avg': ..., 'std': ...}`
(line 250).  The `std` entry of the source is `float(np.std(latencies))`:
its exact radicand, the population variance, is stored in `variance`, and the
entry's real value is the projection `ProfileSummary.std`. -/
structure ProfileSummary where
  unit : Json
  avg : ℚ
  variance : ℚ

/-- The real value of the summary's `std` entry. -/
noncomputable def ProfileSummary.std (r : ProfileSummary) : ℝ := Real.sqrt r.variance

/-! ## The parsing pipeline (source lines 209-253, `is_file=False` path) -/

/-- The marker of line 233. -/
def mainRunsMarker : List Char := "\nMain runs.\n".toList

/-- The first extraction delimiter (line 234). -/
def observerDelim : List Char := "\nMain runs.\nPyTorchObserver".toList

/-- The second extraction delimiter (line 236). -/
def runFinishedMarker : List Char := "\nMain run finished.".toList

/-- The record separator replaced by a comma (line 238). -/
def observerSep : List Char := "\nPyTorchObserver".toList

/-- The `'unit'` dictionary key. -/
def unitKey : List Char := "unit".toList

/-- The `'value'` dictionary key. -/
def valueKey : List Char := "value".toList

/-- Line 231: `data = data.replace("\r", "")`. -/
def removeCR (l : List Char) : List Char := replaceSub ['\r'] [] l

/-- Lines 233-236: the marker assertion, then
`data.split('\nMain runs.\nPyTorchObserver')[1]` (an `IndexError` when the
delimiter is absent) and `.split('\nMain run finished.')[0]` (`split` always
has a part `[0]`, so the `headD` default is unreachable). -/
def mainSection (data : List Char) : Except ParseError (List Char) :=
  if containsSub mainRunsMarker data then
    match (splitOnL observerDelim data)[1]? with
    | some md => Except.ok ((splitOnL runFinishedMarker md).headD [])
    | none => Except.error ParseError.missingDelimiter
  else Except.error ParseError.missingMarker

/-- Lines 237-241: `'[' + main_data.replace("\nPyTorchObserver", ",") + ']'`. -/
def reconstructArray (sec : List Char) : List Char :=
  '[' :: (replaceSub observerSep [','] sec ++ [']'])

/-- Line 242, `main_results = json.loads(main_data)`, together with the shape
of the result: the reconstructed text is bracket-delimited, so a successful
parse is an array, whose element list is returned (the non-array branch is
unreachable). -/
def decodeRecords (sec : List Char) : Except ParseError (List Json) :=
  match json_loads (reconstructArray sec) with
  | some (Json.arr rs) => Except.ok rs
  | some _ => Except.error ParseError.jsonError
  | none => Except.error ParseError.jsonError

/-- Lines 231-242: everything before the summarising loop. -/
def extractRecords (out : List Char) : Except ParseError (List Json) := do
  let sec ← mainSection (removeCR out)
  decodeRecords sec

/-- Lines 246-248: the loop
`for elem in main_results: assert elem['unit'] == unit;
latencies.append(float(elem['value']))`, which stops at the first failing
lookup, assertion or coercion. -/
def collectLatencies (unit : Json) : List Json → Except ParseError (List ℚ)
  | [] => Except.ok []
  | elem :: rest => do
    let u ← pyGetKey elem unitKey
    if pyEq u unit then
      let v ← pyGetKey elem valueKey
      let q ← pyFloat v
      let qs ← collectLatencies unit rest
      Except.ok (q :: qs)
    else Except.error ParseError.unitMismatch

/-- Lines 244-251: `unit = main_results[0]['unit']` (an `IndexError` on an
empty array), the collection loop, and the result dictionary. -/
def summarize (records : List Json) : Except ParseError ProfileSummary :=
  match records[0]? with
  | none => Except.error ParseError.emptyResults
  | some first => do
    let unit ← pyGetKey first unitKey
    let latencies ← collectLatencies unit records
    Except.ok ⟨unit, mean latencies, popVar latencies⟩

/-- `parse_profiler_output` (lines 209-253) on an in-memory string, i.e. the
`is_file=False` path; the `is_file=True` path only prepends a whole-file
read of the same text. -/
def parse_profiler_output (out : List Char) : Except ParseError ProfileSummary := do
  let rs ← extractRecords out
  summarize rs

/-! ## `set_bit` (source lines 52-61) -/

/-- `set_bit` from the source.  Python integers are arbitrary-precision
signed integers, modelled by `ℤ`; `if val:` tests truthiness, modelled by a
`Bool`; `1 << index`, `~`, `&` and `|` are `<<<`, `Int.lnot`, `Int.land` and
`Int.lor`. -/
def set_bit (arg : ℤ) (index : ℕ) (val : Bool) : ℤ :=
  let mask : ℤ := 1 <<< (index : ℤ)
  let cleared : ℤ := Int.land arg (Int.lnot mask)
  if val then Int.lor cleared mask else cleared

/-! ## Auxiliary definitions used by the claims -/

/-- `CRInsert s s'` holds when `s'` is obtained from `s` by inserting
carriage-return characters at arbitrary positions. -/
inductive CRInsert : List Char → List Char → Prop
  | nil : CRInsert [] []
  | keep (c : Char) {l l' : List Char} : CRInsert l l' → CRInsert (c :: l) (c :: l')
  | ins {l l' : List Char} : CRInsert l l' → CRInsert l ('\r' :: l')

/-- Characters of a plain decimal literal: digits, point, sign and exponent
letter.  Such a literal contains no quote, backslash, brace, newline or
control character, so it embeds verbatim into the synthetic grammar. -/
def isLitChar (c : Char) : Bool :=
  c.isDigit || c == '.' || c == '-' || c == '+' || c == 'e' || c == 'E'

/-- One synthetic observer record `{"unit": "ms", "value": "<lit>"}` of the
round-trip claim, with the value literal as in the spec's worked example. -/
def recordOf (lit : List Char) : List Char :=
  "\x7b\"unit\":\"ms\",\"value\":\"".toList ++ lit ++ "\"\x7d".toList

/-- The `"\nPyTorchObserver"`-prefixed record lines for a list of value
literals, in order. -/
def recsTail (lits : List (List Char)) : List Char :=
  (lits.map fun lit => observerSep ++ recordOf lit).flatten

/-- A synthetic profiler output that formats one `PyTorchObserver` record
per value literal, following the exact marker grammar of the spec's
round-trip property and worked example. -/
def buildProfilerOutput (lits : List (List Char)) : List Char :=
  "\nMain runs.".toList ++ recsTail lits ++ "\nMain run finished.\n".toList

/-- The record texts joined by commas: the reconstructed array body that the
replacement stage produces from a synthetic output. -/
def commaJoined : List (List Char) → List Char
  | [] => []
  | lit :: rest => recordOf lit ++ (rest.map fun l => ',' :: recordOf l).flatten

/-- The decoded form of one synthetic record. -/
def recObjOf (lit : List Char) : Json :=
  Json.obj [("unit".toList, Json.str ("ms".toList)),
    ("value".toList, Json.str lit)]

/-- The `value` fields of a record list, coerced to numbers the way the
collection loop coerces them — the claim-side description of "the N value
fields" against which the summary's statistics are checked. -/
def recordValues (records : List Json) : Except ParseError (List ℚ) :=
  records.mapM fun r => pyGetKey r valueKey >>= pyFloat

/-- Every record of the list carries a `unit` field that compares equal
(Python `==`) to `u`. -/
def allUnits (u : Json) (records : List Json) : Prop :=
  ∀ r ∈ records, ∃ ur, pyGetKey r unitKey = Except.ok ur ∧ pyEq ur u = true

/-- The extracted main section of `out` is terminated by an occurrence of
`'\nMain run finished.'`, rather than by the end of the input: the second
split of the pipeline finds its delimiter inside `split[1]`. -/
def finishMarkerTerminated (out : List Char) : Prop :=
  ∃ md, (splitOnL observerDelim (removeCR out))[1]? = some md ∧
    containsSub runFinishedMarker md = true

/-! ## Lemmas: occurrence finding -/

theorem leadsWith_iff (p l : List Char) :
    leadsWith p l = true ↔ ∃ t, l = p ++ t := by
  induction p generalizing l with
  | nil => simp [leadsWith]
  | cons a as ih =>
    cases l with
    | nil => simp [leadsWith]
    | cons b bs =>
      rw [leadsWith]
      by_cases hab : a = b
      · subst hab
        simp [ih]
      · rw [if_neg hab]
        simp only [Bool.false_eq_true, false_iff, not_exists]
        intro t ht
        rw [List.cons_append] at ht
        injection ht with h1 _
        exact hab h1.symm

theorem leadsWith_length_le {p l : List Char} (h : leadsWith p l = true) :
    p.length ≤ l.length := by
  obtain ⟨t, ht⟩ := (leadsWith_iff p l).mp h
  simp [ht]

theorem leadsWith_append_left {p l : List Char} (u : List Char)
    (h : p.length ≤ l.length) : leadsWith p (l ++ u) = leadsWith p l := by
  induction p generalizing l with
  | nil => simp [leadsWith]
  | cons a as ih =>
    cases l with
    | nil => simp at h
    | cons b bs =>
      rw [List.cons_append, leadsWith, leadsWith]
      by_cases hab : a = b
      · rw [if_pos hab, if_pos hab]
        exact ih (Nat.le_of_succ_le_succ h)
      · rw [if_neg hab, if_neg hab]

theorem breakOnSub_eq_append {sep l pre post : List Char}
    (h : breakOnSub sep l = some (pre, post)) : l = pre ++ sep ++ post := by
  induction l generalizing pre post with
  | nil =>
    by_cases hs : sep = []
    · simp only [breakOnSub, if_pos hs, Option.some.injEq, Prod.mk.injEq] at h
      simp [hs, ← h.1, ← h.2]
    · simp [breakOnSub, hs] at h
  | cons c rest ih =>
    rw [breakOnSub] at h
    by_cases hl : leadsWith sep (c :: rest) = true
    · rw [if_pos hl] at h
      simp only [Option.some.injEq, Prod.mk.injEq] at h
      obtain ⟨hpre, hpost⟩ := h
      obtain ⟨t, ht⟩ := (leadsWith_iff sep (c :: rest)).mp hl
      rw [ht] at hpost ⊢
      rw [List.drop_left] at hpost
      simp [← hpre, ← hpost]
    · rw [if_neg hl] at h
      cases hb : breakOnSub sep rest with
      | none => rw [hb] at h; exact absurd h (by simp)
      | some pr =>
        obtain ⟨pre', post'⟩ := pr
        rw [hb] at h
        simp only [Option.some.injEq, Prod.mk.injEq] at h
        obtain ⟨hpre, hpost⟩ := h
        have := ih hb
        simp [← hpre, ← hpost, this]

theorem breakOnSub_length_lt {sep l pre post : List Char} (hs : sep ≠ [])
    (h : breakOnSub sep l = some (pre, post)) : post.length < l.length := by
  have hl := breakOnSub_eq_append h
  have : 0 < sep.length := List.length_pos.mpr hs
  rw [hl]
  simp [List.length_append]
  omega

theorem breakOnSub_nil_left (l : List Char) : breakOnSub [] l = some ([], l) := by
  cases l with
  | nil => simp [breakOnSub]
  | cons c rest => simp [breakOnSub, leadsWith]

theorem breakOnSub_self_append (sep t : List Char) :
    breakOnSub sep (sep ++ t) = some ([], t) := by
  cases sep with
  | nil => simpa using breakOnSub_nil_left t
  | cons s ss =>
    rw [List.cons_append, breakOnSub]
    have hl : leadsWith (s :: ss) ((s :: ss) ++ t) = true :=
      (leadsWith_iff _ _).mpr ⟨t, rfl⟩
    rw [List.cons_append] at hl
    rw [if_pos hl]
    have : (s :: (ss ++ t)).drop (s :: ss).length = t := by
      have := List.drop_left (s :: ss) t
      simpa using this
    rw [this]

theorem breakOnSub_cons (sep : List Char) (c : Char) (rest : List Char) :
    breakOnSub sep (c :: rest) =
      if leadsWith sep (c :: rest) = true then
        some ([], (c :: rest).drop sep.length)
      else (breakOnSub sep rest).map fun pr => (c :: pr.1, pr.2) := by
  rw [breakOnSub]
  by_cases hl : leadsWith sep (c :: rest) = true
  · rw [if_pos hl, if_pos hl]
  · rw [if_neg hl, if_neg hl]
    cases breakOnSub sep rest with
    | none => rfl
    | some pr => rfl

theorem breakOnSub_none_iff {sep l : List Char} (hs : sep ≠ []) :
    breakOnSub sep l = none ↔ ∀ a b, l ≠ a ++ sep ++ b := by
  induction l with
  | nil =>
    simp only [breakOnSub, if_neg hs, true_iff]
    intro a b hab
    have hlen := congrArg List.length hab
    simp only [List.length_nil, List.length_append] at hlen
    have : sep.length = 0 := by omega
    exact hs (List.length_eq_zero.mp this)
  | cons c rest ih =>
    rw [breakOnSub_cons]
    by_cases hl : leadsWith sep (c :: rest) = true
    · obtain ⟨t, ht⟩ := (leadsWith_iff sep (c :: rest)).mp hl
      rw [if_pos hl]
      apply iff_of_false (by simp)
      intro hall
      exact hall [] t (by simpa using ht)
    · rw [if_neg hl]
      cases hb : breakOnSub sep rest with
      | none =>
        simp only [Option.map_none']
        apply iff_of_true trivial
        intro a b hab
        cases a with
        | nil =>
          exact hl ((leadsWith_iff sep (c :: rest)).mpr ⟨b, by simpa using hab⟩)
        | cons a0 a' =>
          rw [List.cons_append, List.cons_append] at hab
          injection hab with h1 h2
          exact (ih.mp hb) a' b (by simpa using h2)
      | some pr =>
        obtain ⟨pre, post⟩ := pr
        simp only [Option.map_some']
        have hd := breakOnSub_eq_append hb
        apply iff_of_false (by simp)
        intro hall
        exact hall (c :: pre) post (by simp [hd])

theorem breakOnSub_cons_of_head_ne {h : Char} {ss l : List Char} {c : Char}
    (hch : c ≠ h) :
    breakOnSub (h :: ss) (c :: l) =
      (breakOnSub (h :: ss) l).map fun pr => (c :: pr.1, pr.2) := by
  rw [breakOnSub_cons]
  have hl : leadsWith (h :: ss) (c :: l) = false := by
    rw [leadsWith, if_neg (fun hh => hch hh.symm)]
  rw [hl]
  simp

theorem breakOnSub_append_of_head_notMem {h : Char} {ss l₁ : List Char}
    (l₂ : List Char) (hmem : h ∉ l₁) :
    breakOnSub (h :: ss) (l₁ ++ l₂) =
      (breakOnSub (h :: ss) l₂).map fun pr => (l₁ ++ pr.1, pr.2) := by
  induction l₁ with
  | nil =>
    simp only [List.nil_append]
    cases breakOnSub (h :: ss) l₂ with
    | none => rfl
    | some pr => rfl
  | cons c l₁' ih =>
    have hc : c ≠ h := fun hch => hmem (hch ▸ List.mem_cons_self c l₁')
    have hmem' : h ∉ l₁' := fun hm => hmem (List.mem_cons_of_mem c hm)
    rw [List.cons_append, breakOnSub_cons_of_head_ne hc, ih hmem']
    cases breakOnSub (h :: ss) l₂ with
    | none => rfl
    | some pr => rfl

theorem breakOnSub_none_of_head_notMem {h : Char} {ss l : List Char}
    (hmem : h ∉ l) : breakOnSub (h :: ss) l = none := by
  have happ := @breakOnSub_append_of_head_notMem h ss l [] hmem
  rw [List.append_nil] at happ
  rw [happ]
  simp [breakOnSub]

theorem breakOnSub_append_some {sep l pre post : List Char} (u : List Char)
    (h : breakOnSub sep l = some (pre, post)) :
    breakOnSub sep (l ++ u) = some (pre, post ++ u) := by
  induction l generalizing pre post with
  | nil =>
    by_cases hs : sep = []
    · subst hs
      rw [breakOnSub_nil_left] at h
      simp only [Option.some.injEq, Prod.mk.injEq] at h
      rw [List.nil_append, breakOnSub_nil_left]
      simp [← h.1, ← h.2]
    · simp [breakOnSub, hs] at h
  | cons c rest ih =>
    rw [breakOnSub_cons] at h
    by_cases hl : leadsWith sep (c :: rest) = true
    · rw [if_pos hl] at h
      simp only [Option.some.injEq, Prod.mk.injEq] at h
      obtain ⟨hpre, hpost⟩ := h
      have hlen : sep.length ≤ (c :: rest).length := leadsWith_length_le hl
      have hl' : leadsWith sep (c :: (rest ++ u)) = true := by
        have hstep := leadsWith_append_left (p := sep) (l := c :: rest) u hlen
        rw [List.cons_append] at hstep
        rw [hstep]
        exact hl
      show breakOnSub sep (c :: (rest ++ u)) = some (pre, post ++ u)
      rw [breakOnSub_cons, if_pos hl']
      have hdrop : (c :: (rest ++ u)).drop sep.length =
          (c :: rest).drop sep.length ++ u := by
        have hstep := @List.drop_append_eq_append_drop Char (c :: rest) u sep.length
        rw [Nat.sub_eq_zero_of_le hlen, List.drop_zero, List.cons_append]
          at hstep
        exact hstep
      rw [hdrop, ← hpre, ← hpost]
    · rw [if_neg hl] at h
      rw [Option.map_eq_some'] at h
      obtain ⟨⟨pre', post'⟩, hb, heq⟩ := h
      simp only [Prod.mk.injEq] at heq
      obtain ⟨hpre, hpost⟩ := heq
      have hsl : sep.length ≤ rest.length := by
        have hd := breakOnSub_eq_append hb
        have hlen := congrArg List.length hd
        simp only [List.length_append] at hlen
        omega
      have hlen : sep.length ≤ (c :: rest).length := by
        simp only [List.length_cons]
        omega
      have hl' : leadsWith sep (c :: (rest ++ u)) = false := by
        have hstep := leadsWith_append_left (p := sep) (l := c :: rest) u hlen
        rw [List.cons_append] at hstep
        rw [hstep]
        simpa using hl
      show breakOnSub sep (c :: (rest ++ u)) = some (pre, post ++ u)
      rw [breakOnSub_cons, if_neg (by simp [hl']), ih hb]
      simp [← hpre, ← hpost]

theorem breakOnSub_min {sep l pre post : List Char}
    (h : breakOnSub sep l = some (pre, post)) :
    ∀ a b, l = a ++ sep ++ b → pre.length ≤ a.length := by
  induction l generalizing pre post with
  | nil =>
    intro a b hab
    by_cases hs : sep = []
    · subst hs
      rw [breakOnSub_nil_left] at h
      simp only [Option.some.injEq, Prod.mk.injEq] at h
      simp [← h.1]
    · simp [breakOnSub, hs] at h
  | cons c rest ih =>
    rw [breakOnSub_cons] at h
    by_cases hl : leadsWith sep (c :: rest) = true
    · rw [if_pos hl] at h
      simp only [Option.some.injEq, Prod.mk.injEq] at h
      intro a b _
      simp [← h.1]
    · rw [if_neg hl] at h
      rw [Option.map_eq_some'] at h
      obtain ⟨⟨pre', post'⟩, hb, heq⟩ := h
      simp only [Prod.mk.injEq] at heq
      obtain ⟨hpre, hpost⟩ := heq
      intro a b hab
      cases a with
      | nil =>
        simp only [List.nil_append] at hab
        exact absurd ((leadsWith_iff sep (c :: rest)).mpr ⟨b, hab⟩) hl
      | cons a0 a' =>
        rw [List.cons_append, List.cons_append] at hab
        injection hab with h1 h2
        have := ih hb a' b (by simpa using h2)
        rw [← hpre]
        simpa using this

/-! ## Lemmas: split, replace, containment -/

theorem splitOnF_congr {sep : List Char} (hs : sep ≠ []) :
    ∀ (f g : Nat) (l : List Char), l.length < f → l.length < g →
      splitOnF sep f l = splitOnF sep g l := by
  intro f
  induction f with
  | zero => intro g l hf hg; omega
  | succ f ih =>
    intro g l hf hg
    cases g with
    | zero => omega
    | succ g =>
      simp only [splitOnF]
      cases hb : breakOnSub sep l with
      | none => simp
      | some pr =>
        obtain ⟨pre, post⟩ := pr
        have hlt := breakOnSub_length_lt hs hb
        simp only
        rw [ih g post (by omega) (by omega)]

theorem splitOnL_of_none {sep l : List Char} (h : breakOnSub sep l = none) :
    splitOnL sep l = [l] := by
  simp [splitOnL, splitOnF, h]

theorem splitOnL_of_some {sep l pre post : List Char} (hs : sep ≠ [])
    (h : breakOnSub sep l = some (pre, post)) :
    splitOnL sep l = pre :: splitOnL sep post := by
  have hlt := breakOnSub_length_lt hs h
  have h1 : splitOnL sep l = pre :: splitOnF sep l.length post := by
    rw [splitOnL]
    simp only [splitOnF, h]
  rw [h1, splitOnL]
  rw [splitOnF_congr hs l.length (post.length + 1) post (by omega) (by omega)]

theorem splitOnL_ne_nil (sep l : List Char) : splitOnL sep l ≠ [] := by
  rw [splitOnL, splitOnF]
  cases breakOnSub sep l with
  | none => simp
  | some pr => simp

theorem replaceSubF_congr {sep repl : List Char} (hs : sep ≠ []) :
    ∀ (f g : Nat) (l : List Char), l.length < f → l.length < g →
      replaceSubF sep repl f l = replaceSubF sep repl g l := by
  intro f
  induction f with
  | zero => intro g l hf hg; omega
  | succ f ih =>
    intro g l hf hg
    cases g with
    | zero => omega
    | succ g =>
      simp only [replaceSubF]
      cases hb : breakOnSub sep l with
      | none => simp
      | some pr =>
        obtain ⟨pre, post⟩ := pr
        have hlt := breakOnSub_length_lt hs hb
        simp only
        rw [ih g post (by omega) (by omega)]

theorem replaceSub_of_none {sep repl l : List Char}
    (h : breakOnSub sep l = none) : replaceSub sep repl l = l := by
  simp [replaceSub, replaceSubF, h]

theorem replaceSub_of_some {sep repl l pre post : List Char} (hs : sep ≠ [])
    (h : breakOnSub sep l = some (pre, post)) :
    replaceSub sep repl l = pre ++ repl ++ replaceSub sep repl post := by
  have hlt := breakOnSub_length_lt hs h
  have h1 : replaceSub sep repl l = pre ++ repl ++ replaceSubF sep repl l.length post := by
    rw [replaceSub]
    simp only [replaceSubF, h]
  rw [h1, replaceSub]
  rw [replaceSubF_congr hs l.length (post.length + 1) post (by omega) (by omega)]

theorem containsSub_iff {sep l : List Char} :
    containsSub sep l = true ↔ ∃ a b, l = a ++ sep ++ b := by
  rw [containsSub]
  by_cases hs : sep = []
  · subst hs
    rw [breakOnSub_nil_left]
    simp only [Option.isSome_some, true_iff]
    exact ⟨[], l, rfl⟩
  · cases hb : breakOnSub sep l with
    | none =>
      simp only [Option.isSome_none]
      apply iff_of_false (by simp)
      rintro ⟨a, b, hab⟩
      exact (breakOnSub_none_iff hs).mp hb a b hab
    | some pr =>
      obtain ⟨pre, post⟩ := pr
      simp only [Option.isSome_some]
      apply iff_of_true trivial
      exact ⟨pre, post, breakOnSub_eq_append hb⟩

theorem containsSub_append {sep l : List Char} (u : List Char)
    (h : containsSub sep l = true) : containsSub sep (l ++ u) = true := by
  obtain ⟨a, b, hab⟩ := containsSub_iff.mp h
  exact containsSub_iff.mpr ⟨a, b ++ u, by simp [hab]⟩

theorem containsSub_false_none {sep l : List Char}
    (h : containsSub sep l = false) : breakOnSub sep l = none := by
  rw [containsSub] at h
  cases hb : breakOnSub sep l with
  | none => rfl
  | some pr => rw [hb] at h; simp at h

theorem takeUntil_of_none {sep l : List Char} (h : breakOnSub sep l = none) :
    takeUntil sep l = l := by
  rw [takeUntil, h]

theorem takeUntil_of_some {sep l pre post : List Char}
    (h : breakOnSub sep l = some (pre, post)) : takeUntil sep l = pre := by
  rw [takeUntil, h]

theorem splitOnL_head {sep l : List Char} (hs : sep ≠ []) :
    (splitOnL sep l).head? = some (takeUntil sep l) := by
  cases hb : breakOnSub sep l with
  | none => rw [splitOnL_of_none hb, takeUntil_of_none hb]; rfl
  | some pr =>
    obtain ⟨pre, post⟩ := pr
    rw [splitOnL_of_some hs hb, takeUntil_of_some hb]
    rfl

theorem splitOnL_headD {sep l : List Char} (hs : sep ≠ []) :
    (splitOnL sep l).headD [] = takeUntil sep l := by
  have h := splitOnL_head (l := l) hs
  cases hsp : splitOnL sep l with
  | nil => exact absurd hsp (splitOnL_ne_nil sep l)
  | cons x xs =>
    rw [hsp] at h
    simp only [List.head?_cons, Option.some.injEq] at h
    simp [h]

theorem splitOnL_idx1 {sep l : List Char} (hs : sep ≠ []) :
    (splitOnL sep l)[1]? = (breakOnSub sep l).map fun pr => takeUntil sep pr.2 := by
  cases hb : breakOnSub sep l with
  | none => rw [splitOnL_of_none hb]; rfl
  | some pr =>
    obtain ⟨pre, post⟩ := pr
    rw [splitOnL_of_some hs hb]
    simp only [Option.map_some']
    have h := splitOnL_head (l := post) hs
    cases hsp : splitOnL sep post with
    | nil => exact absurd hsp (splitOnL_ne_nil sep post)
    | cons x xs =>
      rw [hsp] at h
      simp only [List.head?_cons, Option.some.injEq] at h
      simp [h]

/-! ## Lemmas: carriage-return stripping -/

theorem removeCR_cons (c : Char) (l : List Char) :
    removeCR (c :: l) = if c = '\r' then removeCR l else c :: removeCR l := by
  by_cases hc : c = '\r'
  · subst hc
    rw [if_pos rfl]
    have hb : breakOnSub ['\r'] ('\r' :: l) = some ([], l) := by
      have h := breakOnSub_self_append ['\r'] l
      simpa using h
    rw [removeCR, replaceSub_of_some (by simp) hb]
    simp [removeCR]
  · rw [if_neg hc]
    have hb := @breakOnSub_cons_of_head_ne '\r' [] l c hc
    cases hb2 : breakOnSub ['\r'] l with
    | none =>
      rw [hb2] at hb
      simp only [Option.map_none'] at hb
      rw [removeCR, replaceSub_of_none hb, removeCR, replaceSub_of_none hb2]
    | some pr =>
      obtain ⟨pre, post⟩ := pr
      rw [hb2] at hb
      simp only [Option.map_some'] at hb
      rw [removeCR, replaceSub_of_some (by simp) hb, removeCR,
        replaceSub_of_some (by simp) hb2]
      simp [removeCR]

theorem removeCR_eq_filter (l : List Char) :
    removeCR l = l.filter fun c => c != '\r' := by
  induction l with
  | nil => rfl
  | cons c l ih =>
    rw [removeCR_cons, List.filter_cons]
    by_cases hc : c = '\r'
    · subst hc
      simp [ih]
    · rw [if_neg hc, ih]
      have : (c != '\r') = true := by simpa using hc
      rw [this]
      simp

theorem removeCR_append (l₁ l₂ : List Char) :
    removeCR (l₁ ++ l₂) = removeCR l₁ ++ removeCR l₂ := by
  simp [removeCR_eq_filter, List.filter_append]

theorem removeCR_of_notMem {l : List Char} (h : '\r' ∉ l) : removeCR l = l := by
  rw [removeCR_eq_filter]
  apply List.filter_eq_self.mpr
  intro a ha
  simp only [bne_iff_ne, ne_eq]
  exact fun heq => h (heq ▸ ha)

theorem CRInsert_removeCR {s s' : List Char} (h : CRInsert s s') :
    removeCR s' = removeCR s := by
  induction h with
  | nil => rfl
  | keep c _ ih => rw [removeCR_cons, removeCR_cons, ih]
  | ins _ ih => rw [removeCR_cons, if_pos rfl, ih]

/-! ## Lemmas: the pipeline stages -/

theorem parse_of_mainSection_error {out : List Char} {e : ParseError}
    (h : mainSection (removeCR out) = Except.error e) :
    parse_profiler_output out = Except.error e := by
  rw [parse_profiler_output, extractRecords, h]
  rfl

theorem parse_of_stages {out sec : List Char} {records : List Json}
    (h1 : mainSection (removeCR out) = Except.ok sec)
    (h2 : decodeRecords sec = Except.ok records) :
    parse_profiler_output out = summarize records := by
  rw [parse_profiler_output, extractRecords, h1]
  show (decodeRecords sec).bind summarize = summarize records
  rw [h2]
  rfl

theorem mainSection_of_marker_false {data : List Char}
    (h : containsSub mainRunsMarker data = false) :
    mainSection data = Except.error ParseError.missingMarker := by
  rw [mainSection, if_neg (by simp [h])]

theorem observerDelim_ne_nil : observerDelim ≠ [] := by
  rw [observerDelim]
  with_unfolding_all decide

theorem runFinishedMarker_ne_nil : runFinishedMarker ≠ [] := by
  rw [runFinishedMarker]
  with_unfolding_all decide

theorem mainSection_of_delim_none {data : List Char}
    (hm : containsSub mainRunsMarker data = true)
    (h : breakOnSub observerDelim data = none) :
    mainSection data = Except.error ParseError.missingDelimiter := by
  rw [mainSection, if_pos hm, splitOnL_idx1 observerDelim_ne_nil, h]
  rfl

theorem mainSection_of_delim_some {data pre post : List Char}
    (hm : containsSub mainRunsMarker data = true)
    (h : breakOnSub observerDelim data = some (pre, post)) :
    mainSection data =
      Except.ok (takeUntil runFinishedMarker (takeUntil observerDelim post)) := by
  rw [mainSection, if_pos hm, splitOnL_idx1 observerDelim_ne_nil, h]
  simp only [Option.map_some']
  rw [splitOnL_headD runFinishedMarker_ne_nil]

theorem parse_congr_removeCR {s s' : List Char} (h : removeCR s = removeCR s') :
    parse_profiler_output s = parse_profiler_output s' := by
  rw [parse_profiler_output, parse_profiler_output, extractRecords,
    extractRecords, h]

/-! ## Claim C6 -/

/-- C6: for every input string that, after carriage-return removal, does not
contain the exact marker substring `"\nMain runs.\n"`, the parser fails at
the line-233 assertion — the `missingMarker` site, a bare `AssertionError`
in Python, which is the site the spec's taxonomy (§7) classifies as
`MalformedOutputError`. -/
theorem missing_marker_fails (out : List Char)
    (h : containsSub mainRunsMarker (removeCR out) = false) :
    parse_profiler_output out = Except.error ParseError.missingMarker :=
  parse_of_mainSection_error (mainSection_of_marker_false h)

/-- Witness for `missing_marker_fails` at the concrete input `"hello"`. -/
theorem missing_marker_fails_witness :
    containsSub mainRunsMarker (removeCR ("hello".toList)) = false ∧
    parse_profiler_output ("hello".toList) =
      Except.error ParseError.missingMarker :=
  ⟨by with_unfolding_all rfl, missing_marker_fails _ (by with_unfolding_all rfl)⟩

/-! ## Claim C5 -/

/-- C5 (counterexample): an input from which the extraction delimiter
`"\nMain run finished."` is entirely absent, yet on which
`parse_profiler_output` SUCCEEDS: `split[0]` of a separator-free split is
the whole text, so the main section silently extends to the end of the
input.  This refutes the claim that a missing second delimiter produces a
`MalformedOutputError`. -/
theorem finish_marker_not_required_cex :
    containsSub runFinishedMarker
      (removeCR ("\nMain runs.\nPyTorchObserver\x7b\"unit\":\"ms\",\"value\":\"1.0\"\x7d").toList) = false ∧
    parse_profiler_output
        ("\nMain runs.\nPyTorchObserver\x7b\"unit\":\"ms\",\"value\":\"1.0\"\x7d").toList =
      Except.ok ⟨Json.str ("ms".toList), 1, 0⟩ :=
  ⟨by with_unfolding_all rfl, by with_unfolding_all rfl⟩

/-- C5 (amended): only the FIRST extraction delimiter is load-bearing: when
`"\nMain runs.\nPyTorchObserver"` does not occur in the CR-stripped input —
equivalently, when splitting on it produces no second part — the parser
fails, at the marker assertion (`missingMarker`) or at the `split[1]`
indexing (`missingDelimiter`); both sites are `MalformedOutputError` in the
spec's taxonomy.  A missing `"\nMain run finished."` alone does not cause a
failure (see `finish_marker_not_required_cex`): the section then extends to
the end of the input. -/
theorem missing_first_delimiter_fails (out : List Char)
    (h : containsSub observerDelim (removeCR out) = false) :
    parse_profiler_output out = Except.error ParseError.missingMarker ∨
    parse_profiler_output out = Except.error ParseError.missingDelimiter := by
  cases hm : containsSub mainRunsMarker (removeCR out) with
  | false => exact Or.inl (missing_marker_fails out hm)
  | true =>
    exact Or.inr (parse_of_mainSection_error
      (mainSection_of_delim_none hm (containsSub_false_none h)))

/-- Witness for `missing_first_delimiter_fails` at a concrete input that has
the marker but no `PyTorchObserver` delimiter. -/
theorem missing_first_delimiter_fails_witness :
    containsSub observerDelim (removeCR ("\nMain runs.\nno observer".toList)) = false ∧
    (parse_profiler_output ("\nMain runs.\nno observer".toList) =
        Except.error ParseError.missingMarker ∨
      parse_profiler_output ("\nMain runs.\nno observer".toList) =
        Except.error ParseError.missingDelimiter) :=
  ⟨by with_unfolding_all rfl,
    missing_first_delimiter_fails _ (by with_unfolding_all rfl)⟩

/-! ## Claim C7 -/

/-- C7: carriage-return insensitivity.  Inserting `'\r'` characters at
arbitrary positions into an input on which the parser succeeds leaves the
result unchanged, because all carriage returns are removed once, globally
(line 231, `data.replace("\r", "")`), before any other text operation: the
parse is a function of the CR-stripped text alone. -/
theorem cr_insertion_preserves_parse {s s' : List Char} {r : ProfileSummary}
    (hins : CRInsert s s') (hok : parse_profiler_output s = Except.ok r) :
    parse_profiler_output s' = Except.ok r := by
  rw [← parse_congr_removeCR (CRInsert_removeCR hins).symm]
  exact hok

/-- Witness for `cr_insertion_preserves_parse`: a valid output with `'\r'`
characters inserted at the front, in the middle and at the end parses to the
same summary as the clean text. -/
theorem cr_insertion_preserves_parse_witness :
    parse_profiler_output
        ("\r\nMain runs.\r\nPyTorchObserver\x7b\"unit\":\"ms\",\"value\":\"1.0\"\x7d\r".toList) =
      Except.ok ⟨Json.str ("ms".toList), 1, 0⟩ :=
  cr_insertion_preserves_parse
    (s := "\nMain runs.\nPyTorchObserver\x7b\"unit\":\"ms\",\"value\":\"1.0\"\x7d".toList)
    (by repeat first
      | exact CRInsert.nil
      | apply CRInsert.keep
      | apply CRInsert.ins)
    (by with_unfolding_all rfl)

/-! ## Lemmas: the summarising loop -/

theorem exceptBind_ok {ε α β : Type} {x : Except ε α} {f : α → Except ε β}
    {b : β} :
    (x >>= f) = Except.ok b ↔ ∃ a, x = Except.ok a ∧ f a = Except.ok b := by
  cases x <;> simp [Bind.bind, Except.bind]

theorem pyEqList_refl_of {ys : List Json} (h : ∀ x ∈ ys, pyEq x x = true) :
    pyEqList ys ys = true := by
  induction ys with
  | nil => rfl
  | cons x t iht =>
    simp only [pyEqList, Bool.and_eq_true]
    exact ⟨h x (List.mem_cons_self x t),
      iht fun y hy => h y (List.mem_cons_of_mem x hy)⟩

theorem pyEqFields_refl_of {fs : List (List Char × Json)}
    (h : ∀ kv ∈ fs, pyEq kv.2 kv.2 = true) : pyEqFields fs fs = true := by
  induction fs with
  | nil => rfl
  | cons kv t iht =>
    obtain ⟨k, v⟩ := kv
    simp only [pyEqFields, Bool.and_eq_true]
    refine ⟨⟨by simp, h (k, v) (List.mem_cons_self _ t)⟩, ?_⟩
    exact iht fun y hy => h y (List.mem_cons_of_mem _ hy)

theorem pyEq_refl_aux : ∀ (n : Nat) (v : Json), sizeOf v ≤ n → pyEq v v = true := by
  intro n
  induction n with
  | zero =>
    intro v hv
    cases v <;> simp at hv
  | succ n ih =>
    intro v hv
    cases v with
    | null => rfl
    | bool b => simp [pyEq]
    | num q => simp [pyEq]
    | str s => simp [pyEq]
    | arr xs =>
      have hxs : sizeOf xs ≤ n := by
        simp only [Json.arr.sizeOf_spec] at hv
        omega
      simp only [pyEq]
      apply pyEqList_refl_of
      intro x hx
      have hlt := List.sizeOf_lt_of_mem hx
      exact ih x (by omega)
    | obj fs =>
      have hfs : sizeOf fs ≤ n := by
        simp only [Json.obj.sizeOf_spec] at hv
        omega
      simp only [pyEq]
      apply pyEqFields_refl_of
      intro kv hkv
      have hlt := List.sizeOf_lt_of_mem hkv
      obtain ⟨k, v⟩ := kv
      have : sizeOf (k, v) = 1 + sizeOf k + sizeOf v := by simp
      exact ih v (by simp at hlt ⊢; omega)

/-- Python `==` is reflexive on `json.loads` values. -/
theorem pyEq_refl (v : Json) : pyEq v v = true :=
  pyEq_refl_aux (sizeOf v) v (Nat.le_refl _)

theorem collectLatencies_cons_ok {u elem : Json} {rest : List Json}
    {ur v : Json} {q : ℚ} {qs : List ℚ}
    (h1 : pyGetKey elem unitKey = Except.ok ur) (h2 : pyEq ur u = true)
    (h3 : pyGetKey elem valueKey = Except.ok v) (h4 : pyFloat v = Except.ok q)
    (h5 : collectLatencies u rest = Except.ok qs) :
    collectLatencies u (elem :: rest) = Except.ok (q :: qs) := by
  rw [collectLatencies, h1]
  simp [Bind.bind, Except.bind, h2, h3, h4, h5]

theorem collectLatencies_mismatch {u : Json} (pre : List Json) (bad : Json)
    (rest : List Json) {ub : Json}
    (hpre : ∀ r ∈ pre, ∃ ur v q, pyGetKey r unitKey = Except.ok ur ∧
      pyEq ur u = true ∧ pyGetKey r valueKey = Except.ok v ∧
      pyFloat v = Except.ok q)
    (hu : pyGetKey bad unitKey = Except.ok ub) (hne : pyEq ub u = false) :
    collectLatencies u (pre ++ bad :: rest) =
      Except.error ParseError.unitMismatch := by
  induction pre with
  | nil =>
    rw [List.nil_append, collectLatencies, hu]
    simp [Bind.bind, Except.bind, hne]
  | cons r pre ih =>
    obtain ⟨ur, v, q, h1, h2, h3, h4⟩ := hpre r (List.mem_cons_self r pre)
    rw [List.cons_append, collectLatencies, h1]
    have hrec := ih fun y hy => hpre y (List.mem_cons_of_mem r hy)
    simp [Bind.bind, Except.bind, h2, h3, h4, hrec]

theorem collectLatencies_of_allUnits {u : Json} {records : List Json}
    {vs : List ℚ} (hall : allUnits u records)
    (hvals : recordValues records = Except.ok vs) :
    collectLatencies u records = Except.ok vs := by
  induction records generalizing vs with
  | nil =>
    rw [recordValues] at hvals
    simp only [List.mapM_nil] at hvals
    cases hvals
    rfl
  | cons r rs ih =>
    rw [recordValues] at hvals
    rw [List.mapM_cons] at hvals
    obtain ⟨q, hq, hrest⟩ := exceptBind_ok.mp hvals
    obtain ⟨qs, hqs, hpure⟩ := exceptBind_ok.mp hrest
    obtain ⟨v, hv, hfloat⟩ := exceptBind_ok.mp hq
    cases hpure
    obtain ⟨ur, hur, heq⟩ := hall r (List.mem_cons_self r rs)
    exact collectLatencies_cons_ok hur heq hv hfloat
      (ih (fun y hy => hall y (List.mem_cons_of_mem r hy)) (by rw [recordValues]; exact hqs))

theorem summarize_of_ok {records : List Json} {first u : Json}
    {latencies : List ℚ} (h0 : records[0]? = some first)
    (hu : pyGetKey first unitKey = Except.ok u)
    (hlat : collectLatencies u records = Except.ok latencies) :
    summarize records = Except.ok ⟨u, mean latencies, popVar latencies⟩ := by
  rw [summarize, h0]
  simp [Bind.bind, Except.bind, hu, hlat]

theorem summarize_of_error {records : List Json} {first u : Json}
    {e : ParseError} (h0 : records[0]? = some first)
    (hu : pyGetKey first unitKey = Except.ok u)
    (hlat : collectLatencies u records = Except.error e) :
    summarize records = Except.error e := by
  rw [summarize, h0]
  simp [Bind.bind, Except.bind, hu, hlat]

/-! ## Claim C4 -/

/-- C4: for every input that passes the extraction stages with a
reconstructed JSON array of zero records, the parser fails at
`main_results[0]` (line 245) — an `IndexError` in Python, the site the
spec's taxonomy (§7) classifies as `EmptyResultError`. -/
theorem empty_records_fails (out : List Char)
    (h : extractRecords out = Except.ok []) :
    parse_profiler_output out = Except.error ParseError.emptyResults := by
  rw [parse_profiler_output, h]
  rfl

/-- Witness for `empty_records_fails`: markers present, zero records. -/
theorem empty_records_fails_witness :
    extractRecords ("\nMain runs.\nPyTorchObserver\nMain run finished.\n".toList) =
      Except.ok [] ∧
    parse_profiler_output ("\nMain runs.\nPyTorchObserver\nMain run finished.\n".toList) =
      Except.error ParseError.emptyResults :=
  ⟨by with_unfolding_all rfl, empty_records_fails _ (by with_unfolding_all rfl)⟩

/-! ## Claim C8 -/

/-- C8: an input whose reconstructed array holds exactly one observation
record — a dict with a `unit` field and a `value` field coercible to a
number — parses successfully (single-element arrays are valid), and the
summary's `std` entry is exactly `0.0`: the single latency equals its own
mean, the stored variance is `0`, and `std = √0 = 0`. -/
theorem single_record_std_zero (out : List Char) (rec u v : Json) (q : ℚ)
    (hrec : extractRecords out = Except.ok [rec])
    (hu : pyGetKey rec unitKey = Except.ok u)
    (hv : pyGetKey rec valueKey = Except.ok v)
    (hq : pyFloat v = Except.ok q) :
    parse_profiler_output out = Except.ok ⟨u, q, 0⟩ ∧
    ProfileSummary.std ⟨u, q, 0⟩ = 0 := by
  constructor
  · rw [parse_profiler_output, hrec]
    show summarize [rec] = _
    have hcol : collectLatencies u [rec] = Except.ok [q] :=
      collectLatencies_cons_ok hu (pyEq_refl u) hv hq rfl
    rw [@summarize_of_ok [rec] rec u [q] rfl hu hcol]
    have hm : mean [q] = q := by simp [mean]
    have hp : popVar [q] = 0 := by simp [popVar, hm]
    rw [hm, hp]
  · simp [ProfileSummary.std]

/-- Witness for `single_record_std_zero` at a one-record input with value
`2.5`. -/
theorem single_record_std_zero_witness :
    parse_profiler_output
        ("\nMain runs.\nPyTorchObserver\x7b\"unit\":\"ms\",\"value\":\"2.5\"\x7d\nMain run finished.\n".toList) =
      Except.ok ⟨Json.str ("ms".toList), 5 / 2, 0⟩ ∧
    ProfileSummary.std ⟨Json.str ("ms".toList), 5 / 2, 0⟩ = 0 :=
  single_record_std_zero _
    (Json.obj [("unit".toList, Json.str ("ms".toList)),
      ("value".toList, Json.str ("2.5".toList))])
    (Json.str ("ms".toList)) (Json.str ("2.5".toList)) (5 / 2)
    (by with_unfolding_all rfl) (by with_unfolding_all rfl)
    (by with_unfolding_all rfl) (by with_unfolding_all rfl)

/-! ## Claim C1 -/

/-- C1: for every input the parser accepts whose records all carry the same
unit, the summary's `avg` is the arithmetic mean of the record values and
its `std` is their population standard deviation: the square root of the
sum of squared deviations divided by the count `N` — not `N − 1` (`popVar`
divides by `vs.length`). -/
theorem parse_stats_of_same_unit (out : List Char) (records : List Json)
    (first u : Json) (vs : List ℚ)
    (hrec : extractRecords out = Except.ok records)
    (h0 : records[0]? = some first)
    (hu : pyGetKey first unitKey = Except.ok u)
    (hall : allUnits u records)
    (hvals : recordValues records = Except.ok vs) :
    parse_profiler_output out = Except.ok ⟨u, mean vs, popVar vs⟩ ∧
    mean vs = vs.sum / vs.length ∧
    popVar vs = (vs.map fun v => (v - mean vs) ^ 2).sum / vs.length ∧
    ProfileSummary.std ⟨u, mean vs, popVar vs⟩ = popStd vs := by
  refine ⟨?_, rfl, rfl, rfl⟩
  rw [parse_profiler_output, hrec]
  show summarize records = _
  exact summarize_of_ok h0 hu (collectLatencies_of_allUnits hall hvals)

/-- Witness for `parse_stats_of_same_unit` at the spec's worked example:
two records with unit `"ms"` and values `1.0` and `3.0`. -/
theorem parse_stats_of_same_unit_witness :
    parse_profiler_output
        ("\nMain runs.\nPyTorchObserver\x7b\"unit\":\"ms\",\"value\":\"1.0\"\x7d\nPyTorchObserver\x7b\"unit\":\"ms\",\"value\":\"3.0\"\x7d\nMain run finished.\n".toList) =
      Except.ok ⟨Json.str ("ms".toList), mean [1, 3], popVar [1, 3]⟩ := by
  have hall : allUnits (Json.str ("ms".toList))
      [Json.obj [("unit".toList, Json.str ("ms".toList)),
        ("value".toList, Json.str ("1.0".toList))],
       Json.obj [("unit".toList, Json.str ("ms".toList)),
        ("value".toList, Json.str ("3.0".toList))]] := by
    intro r hr
    simp only [List.mem_cons, List.not_mem_nil, or_false] at hr
    rcases hr with h | h
    all_goals subst h
    all_goals exact ⟨Json.str ("ms".toList), by with_unfolding_all rfl,
      by with_unfolding_all rfl⟩
  exact (parse_stats_of_same_unit _
    [Json.obj [("unit".toList, Json.str ("ms".toList)),
      ("value".toList, Json.str ("1.0".toList))],
     Json.obj [("unit".toList, Json.str ("ms".toList)),
      ("value".toList, Json.str ("3.0".toList))]]
    (Json.obj [("unit".toList, Json.str ("ms".toList)),
      ("value".toList, Json.str ("1.0".toList))])
    (Json.str ("ms".toList)) [1, 3]
    (by with_unfolding_all rfl) (by with_unfolding_all rfl)
    (by with_unfolding_all rfl) hall (by with_unfolding_all rfl)).1

/-! ## Claim C3 -/

/-- C3 (counterexample): on the two-record input with units `"ms"` and
`"us"` the parser does fail at the unit assertion, but the error it raises
is the bare `AssertionError` of line 247 (`assert elem['unit'] == unit`),
whose payload is empty: it names neither the two unit values nor the index
of the offending record.  This refutes the claim's "the error names both
unit values and the index of the offending record" part. -/
theorem unit_mismatch_payload_cex :
    parse_profiler_output
        ("\nMain runs.\nPyTorchObserver\x7b\"unit\":\"ms\",\"value\":\"1.0\"\x7d\nPyTorchObserver\x7b\"unit\":\"us\",\"value\":\"3.0\"\x7d\nMain run finished.\n".toList) =
      Except.error ParseError.unitMismatch ∧
    ParseError.payload ParseError.unitMismatch = [] :=
  ⟨by with_unfolding_all rfl, rfl⟩

/-- C3 (amended): the unit check fails fast.  Whenever the decoded records
are `pre ++ bad :: rest`, every record of `pre` carrying the reference unit
(and a coercible value), and `bad`'s unit differing from it, the parser
stops with the `unitMismatch` error — for EVERY `rest`, so later records
are never examined and mismatches are not collected.  The error is the
bare `AssertionError` of line 247 (`InconsistentUnitError` in the spec's
taxonomy §7) and carries no payload: it does not name the units or the
index. -/
theorem unit_mismatch_fail_fast (out : List Char) (pre : List Json)
    (bad : Json) (rest : List Json) (first u ub : Json)
    (hrec : extractRecords out = Except.ok (pre ++ bad :: rest))
    (h0 : (pre ++ bad :: rest)[0]? = some first)
    (hu : pyGetKey first unitKey = Except.ok u)
    (hpre : ∀ r ∈ pre, ∃ ur v q, pyGetKey r unitKey = Except.ok ur ∧
      pyEq ur u = true ∧ pyGetKey r valueKey = Except.ok v ∧
      pyFloat v = Except.ok q)
    (hbu : pyGetKey bad unitKey = Except.ok ub) (hne : pyEq ub u = false) :
    parse_profiler_output out = Except.error ParseError.unitMismatch ∧
    ParseError.payload ParseError.unitMismatch = [] := by
  refine ⟨?_, rfl⟩
  rw [parse_profiler_output, hrec]
  show summarize (pre ++ bad :: rest) = _
  exact summarize_of_error h0 hu
    (collectLatencies_mismatch pre bad rest hpre hbu hne)

/-- Witness for `unit_mismatch_fail_fast` at the `"ms"`/`"us"` input. -/
theorem unit_mismatch_fail_fast_witness :
    parse_profiler_output
        ("\nMain runs.\nPyTorchObserver\x7b\"unit\":\"ms\",\"value\":\"1.0\"\x7d\nPyTorchObserver\x7b\"unit\":\"us\",\"value\":\"3.0\"\x7d\nMain run finished.\n".toList) =
      Except.error ParseError.unitMismatch ∧
    ParseError.payload ParseError.unitMismatch = [] := by
  refine unit_mismatch_fail_fast _
    [Json.obj [("unit".toList, Json.str ("ms".toList)),
      ("value".toList, Json.str ("1.0".toList))]]
    (Json.obj [("unit".toList, Json.str ("us".toList)),
      ("value".toList, Json.str ("3.0".toList))])
    [] (Json.obj [("unit".toList, Json.str ("ms".toList)),
      ("value".toList, Json.str ("1.0".toList))])
    (Json.str ("ms".toList)) (Json.str ("us".toList))
    (by with_unfolding_all rfl) (by with_unfolding_all rfl)
    (by with_unfolding_all rfl) ?_ (by with_unfolding_all rfl)
    (by with_unfolding_all rfl)
  intro r hr
  simp only [List.mem_cons, List.not_mem_nil, or_false] at hr
  subst hr
  exact ⟨Json.str ("ms".toList), Json.str ("1.0".toList), 1,
    by with_unfolding_all rfl, by with_unfolding_all rfl,
    by with_unfolding_all rfl, by with_unfolding_all rfl⟩

/-! ## Claim C10: `set_bit` -/

theorem testBit_one_shiftLeft (i j : ℕ) :
    Nat.testBit (1 <<< i) j = decide (i = j) := by
  rw [Nat.shiftLeft_eq, one_mul]
  by_cases h : i = j
  · subst h
    simp [Nat.testBit_two_pow_self]
  · simp [Nat.testBit_two_pow_of_ne h, h]

theorem set_bit_mask_eq (index : ℕ) :
    ((1 : ℤ) <<< (index : ℤ)) = ((1 <<< index : ℕ) : ℤ) := by
  have h := Int.shiftLeft_coe_nat 1 index
  simpa using h

theorem intTestBit_coe (k j : ℕ) : ((k : ℕ) : ℤ).testBit j = k.testBit j := rfl

theorem set_bit_testBit (x : ℤ) (i j : ℕ) (v : Bool) :
    (set_bit x i v).testBit j = if i = j then v else x.testBit j := by
  simp only [set_bit, set_bit_mask_eq]
  have hmask : ((1 <<< i : ℕ) : ℤ).testBit j = decide (i = j) := by
    rw [intTestBit_coe, testBit_one_shiftLeft]
  cases v with
  | true =>
    rw [if_pos rfl]
    rw [Int.testBit_lor, Int.testBit_land, Int.testBit_lnot, hmask]
    by_cases h : i = j <;> simp [h]
  | false =>
    rw [if_neg (by simp)]
    rw [Int.testBit_land, Int.testBit_lnot, hmask]
    by_cases h : i = j <;> simp [h]

theorem set_bit_ofNat (n : ℕ) (i : ℕ) (v : Bool) :
    set_bit (n : ℤ) i v =
      (((if v then Nat.ldiff n (1 <<< i) ||| (1 <<< i)
          else Nat.ldiff n (1 <<< i)) : ℕ) : ℤ) := by
  simp only [set_bit, set_bit_mask_eq]
  cases v with
  | true => rfl
  | false => rfl

/-- C10: `set_bit arg index val` (source lines 52-61) returns `arg` with the
bit at position `index` forced to `1` when `val` is truthy and to `0`
otherwise, leaves every other bit of `arg` unchanged, and is idempotent in
`(index, val)`: applying it twice gives the same value as applying it once.
Stated for the non-negative `arg` of the claim (Python's `arg & ~mask` and
`arg | mask` over arbitrary-precision integers are `Int.land`/`Int.lor` with
the `Int.lnot` complement). -/
theorem set_bit_spec (arg : ℕ) (index : ℕ) (val : Bool) :
    (set_bit (arg : ℤ) index val).testBit index = val ∧
    (∀ j, j ≠ index → (set_bit (arg : ℤ) index val).testBit j = arg.testBit j) ∧
    set_bit (set_bit (arg : ℤ) index val) index val =
      set_bit (arg : ℤ) index val := by
  refine ⟨?_, ?_, ?_⟩
  · rw [set_bit_testBit, if_pos rfl]
  · intro j hj
    rw [set_bit_testBit, if_neg (fun h => hj h.symm), intTestBit_coe]
  · rw [set_bit_ofNat arg index val, set_bit_ofNat _ index val]
    congr 1
    apply Nat.eq_of_testBit_eq
    intro k
    by_cases h : index = k
    · subst h
      cases val <;>
        simp [Nat.testBit_lor, Nat.testBit_ldiff, testBit_one_shiftLeft]
    · cases val <;>
        simp [Nat.testBit_lor, Nat.testBit_ldiff, testBit_one_shiftLeft, h] <;>
        cases hc : decide (index ≤ k) <;>
        cases h1 : Nat.testBit 1 (k - index) <;>
        cases hb : arg.testBit k <;>
        simp [hc, h1, hb]

/-- Witness for `set_bit_spec` at `arg = 5`, `index = 1`, `val = true`. -/
theorem set_bit_spec_witness :
    (set_bit ((5 : ℕ) : ℤ) 1 true).testBit 1 = true ∧
    (set_bit ((5 : ℕ) : ℤ) 1 true).testBit 0 = Nat.testBit 5 0 ∧
    set_bit (set_bit ((5 : ℕ) : ℤ) 1 true) 1 true = set_bit ((5 : ℕ) : ℤ) 1 true :=
  ⟨(set_bit_spec 5 1 true).1, (set_bit_spec 5 1 true).2.1 0 (by decide),
    (set_bit_spec 5 1 true).2.2⟩

/-! ## Lemmas: the synthetic round-trip output (claim C2) -/

theorem isLitChar_ne {c : Char} (h : isLitChar c = true) :
    c ≠ '\n' ∧ c ≠ '\r' ∧ c ≠ '"' ∧ c ≠ '\\' := by
  refine ⟨?_, ?_, ?_, ?_⟩ <;>
    (intro heq; rw [heq] at h; exact absurd h (by decide))

theorem isLitChar_ge32 {c : Char} (h : isLitChar c = true) : ¬ c.toNat < 32 := by
  rw [isLitChar] at h
  simp only [Bool.or_eq_true, beq_iff_eq] at h
  rcases h with ((((hd | h) | h) | h) | h) | h
  · rw [Char.isDigit] at hd
    simp only [Bool.and_eq_true, decide_eq_true_eq] at hd
    have h48 : (48 : ℕ) ≤ c.val.toNat := UInt32.le_toNat_of_le (by decide) hd.1
    rw [Char.toNat]
    omega
  all_goals subst h
  all_goals decide

theorem leadsWith_mismatch (x : List Char) {a b : Char} (p l : List Char)
    (hab : a ≠ b) : leadsWith (x ++ a :: p) (x ++ b :: l) = false := by
  induction x with
  | nil =>
    rw [List.nil_append, List.nil_append, leadsWith, if_neg hab]
  | cons c x ih =>
    rw [List.cons_append, List.cons_append, leadsWith, if_pos rfl, ih]

theorem notMem_recordOf {lit : List Char} {c : Char}
    (hgood : ∀ d ∈ lit, isLitChar d = true)
    (hc1 : c ∉ "\x7b\"unit\":\"ms\",\"value\":\"".toList)
    (hc2 : c ∉ "\"\x7d".toList) (hc3 : isLitChar c = false) :
    c ∉ recordOf lit := by
  rw [recordOf]
  intro hmem
  rw [List.mem_append, List.mem_append] at hmem
  rcases hmem with (h | h) | h
  · exact hc1 h
  · rw [hgood c h] at hc3
    exact absurd hc3 (by simp)
  · exact hc2 h

theorem newline_notMem_recordOf {lit : List Char}
    (hgood : ∀ d ∈ lit, isLitChar d = true) : '\n' ∉ recordOf lit :=
  notMem_recordOf hgood (by decide) (by decide) (by decide)

theorem cr_notMem_recordOf {lit : List Char}
    (hgood : ∀ d ∈ lit, isLitChar d = true) : '\r' ∉ recordOf lit :=
  notMem_recordOf hgood (by decide) (by decide) (by decide)

theorem observerDelim_decomp :
    observerDelim = ['\n'] ++ 'M' :: "ain runs.\nPyTorchObserver".toList := by
  with_unfolding_all rfl

theorem runFinishedMarker_decomp :
    runFinishedMarker = ['\n'] ++ 'M' :: "ain run finished.".toList := by
  with_unfolding_all rfl

theorem observerSep_decomp :
    observerSep = ['\n'] ++ 'P' :: "yTorchObserver".toList := by
  with_unfolding_all rfl

theorem observerSep_split :
    observerSep = '\n' :: "PyTorchObserver".toList := by
  with_unfolding_all rfl

theorem observerDelim_cons :
    observerDelim = '\n' :: 'M' :: "ain runs.\nPyTorchObserver".toList := by
  with_unfolding_all rfl

theorem runFinishedMarker_cons :
    runFinishedMarker = '\n' :: 'M' :: "ain run finished.".toList := by
  with_unfolding_all rfl

theorem observerSep_cons : observerSep = '\n' :: "PyTorchObserver".toList := by
  with_unfolding_all rfl

theorem breakOnSub_skip_block {δ : List Char} {lit : List Char} (w : List Char)
    (hgood : ∀ d ∈ lit, isLitChar d = true) :
    breakOnSub ('\n' :: 'M' :: δ) (observerSep ++ (recordOf lit ++ w)) =
      (breakOnSub ('\n' :: 'M' :: δ) w).map
        fun pr => (observerSep ++ (recordOf lit ++ pr.1), pr.2) := by
  have hP : "PyTorchObserver".toList = 'P' :: "yTorchObserver".toList := by
    with_unfolding_all rfl
  have hnP : '\n' ∉ "PyTorchObserver".toList ++ recordOf lit := by
    intro hmem
    rw [List.mem_append] at hmem
    rcases hmem with h | h
    · exact absurd h (by decide)
    · exact newline_notMem_recordOf hgood h
  have hshape : observerSep ++ (recordOf lit ++ w) =
      '\n' :: (("PyTorchObserver".toList ++ recordOf lit) ++ w) := by
    rw [observerSep_cons]
    simp [List.append_assoc]
  rw [hshape, breakOnSub_cons]
  have hlw : leadsWith ('\n' :: 'M' :: δ)
      ('\n' :: (("PyTorchObserver".toList ++ recordOf lit) ++ w)) = false := by
    have hsh2 : ("PyTorchObserver".toList ++ recordOf lit) ++ w =
        'P' :: (("yTorchObserver".toList ++ recordOf lit) ++ w) := by
      rw [hP]
      simp [List.append_assoc]
    rw [hsh2]
    exact leadsWith_mismatch ['\n'] δ _ (by decide)
  rw [hlw]
  simp only [Bool.false_eq_true, if_false]
  rw [breakOnSub_append_of_head_notMem _ hnP]
  cases bw : breakOnSub ('\n' :: 'M' :: δ) w with
  | none => rfl
  | some pr =>
    simp only [Option.map_some']
    rw [observerSep_cons]
    simp [List.append_assoc]

theorem breakOnSub_delim_recsTail_none (lits : List (List Char))
    (hgood : ∀ lit ∈ lits, ∀ d ∈ lit, isLitChar d = true) :
    breakOnSub observerDelim
      (recsTail lits ++ "\nMain run finished.\n".toList) = none := by
  induction lits with
  | nil =>
    rw [recsTail]
    simp only [List.map_nil, List.flatten_nil, List.nil_append]
    with_unfolding_all decide
  | cons lit rest ih =>
    rw [recsTail]
    simp only [List.map_cons, List.flatten_cons]
    have hsh : ((observerSep ++ recordOf lit) ++
        (List.map (fun l => observerSep ++ recordOf l) rest).flatten) ++
          "\nMain run finished.\n".toList =
        observerSep ++ (recordOf lit ++
          (recsTail rest ++ "\nMain run finished.\n".toList)) := by
      rw [recsTail]
      simp [List.append_assoc]
    rw [hsh, observerDelim_cons,
      breakOnSub_skip_block _ (hgood lit (List.mem_cons_self lit rest)),
      ← observerDelim_cons, ih fun l hl => hgood l (List.mem_cons_of_mem lit hl)]
    rfl

theorem breakOnSub_finish_recsTail (lits : List (List Char))
    (hgood : ∀ lit ∈ lits, ∀ d ∈ lit, isLitChar d = true) :
    breakOnSub runFinishedMarker
      (recsTail lits ++ "\nMain run finished.\n".toList) =
      some (recsTail lits, ['\n']) := by
  induction lits with
  | nil =>
    rw [recsTail]
    simp only [List.map_nil, List.flatten_nil, List.nil_append]
    rw [show "\nMain run finished.\n".toList = runFinishedMarker ++ ['\n'] from
      by with_unfolding_all rfl]
    rw [breakOnSub_self_append]
  | cons lit rest ih =>
    rw [recsTail]
    simp only [List.map_cons, List.flatten_cons]
    have hsh : ((observerSep ++ recordOf lit) ++
        (List.map (fun l => observerSep ++ recordOf l) rest).flatten) ++
          "\nMain run finished.\n".toList =
        observerSep ++ (recordOf lit ++
          (recsTail rest ++ "\nMain run finished.\n".toList)) := by
      rw [recsTail]
      simp [List.append_assoc]
    rw [hsh, runFinishedMarker_cons,
      breakOnSub_skip_block _ (hgood lit (List.mem_cons_self lit rest)),
      ← runFinishedMarker_cons, ih fun l hl => hgood l (List.mem_cons_of_mem lit hl)]
    simp only [Option.map_some']
    rw [recsTail]
    simp [List.append_assoc]

theorem buildProfilerOutput_decomp (l₀ : List Char) (rest : List (List Char)) :
    buildProfilerOutput (l₀ :: rest) =
      observerDelim ++ (recordOf l₀ ++
        (recsTail rest ++ "\nMain run finished.\n".toList)) := by
  rw [buildProfilerOutput, recsTail]
  simp only [List.map_cons, List.flatten_cons]
  rw [show observerDelim = "\nMain runs.".toList ++ observerSep from
    by with_unfolding_all rfl]
  rw [recsTail]
  simp [List.append_assoc]

theorem mainSection_build (l₀ : List Char) (rest : List (List Char))
    (hgood : ∀ lit ∈ l₀ :: rest, ∀ d ∈ lit, isLitChar d = true) :
    mainSection (buildProfilerOutput (l₀ :: rest)) =
      Except.ok (recordOf l₀ ++ recsTail rest) := by
  have hgood₀ := hgood l₀ (List.mem_cons_self l₀ rest)
  have hgoodr : ∀ lit ∈ rest, ∀ d ∈ lit, isLitChar d = true :=
    fun l hl => hgood l (List.mem_cons_of_mem l₀ hl)
  have hn₀ := newline_notMem_recordOf hgood₀
  rw [buildProfilerOutput_decomp]
  set T := recordOf l₀ ++ (recsTail rest ++ "\nMain run finished.\n".toList) with hT
  have hbreak : breakOnSub observerDelim (observerDelim ++ T) = some ([], T) :=
    breakOnSub_self_append observerDelim T
  have hmarker : containsSub mainRunsMarker (observerDelim ++ T) = true := by
    apply containsSub_iff.mpr
    refine ⟨[], "PyTorchObserver".toList ++ T, ?_⟩
    rw [show observerDelim = mainRunsMarker ++ "PyTorchObserver".toList from
      by with_unfolding_all rfl]
    simp [List.append_assoc]
  have hTd : breakOnSub observerDelim T = none := by
    rw [hT, observerDelim_cons, breakOnSub_append_of_head_notMem _ hn₀,
      ← observerDelim_cons, breakOnSub_delim_recsTail_none rest hgoodr]
    rfl
  have hTf : breakOnSub runFinishedMarker T =
      some (recordOf l₀ ++ recsTail rest, ['\n']) := by
    rw [hT, runFinishedMarker_cons, breakOnSub_append_of_head_notMem _ hn₀,
      ← runFinishedMarker_cons, breakOnSub_finish_recsTail rest hgoodr]
    rfl
  rw [mainSection_of_delim_some hmarker hbreak]
  rw [takeUntil_of_none hTd, takeUntil_of_some hTf]

theorem observerSep_ne_nil : observerSep ≠ [] := by
  rw [observerSep_cons]
  simp

theorem replaceSub_commaJoined (l₀ : List Char) (lits : List (List Char))
    (hgood : ∀ lit ∈ l₀ :: lits, ∀ d ∈ lit, isLitChar d = true) :
    replaceSub observerSep [','] (recordOf l₀ ++ recsTail lits) =
      commaJoined (l₀ :: lits) := by
  induction lits generalizing l₀ with
  | nil =>
    rw [recsTail]
    simp only [List.map_nil, List.flatten_nil, List.append_nil]
    have hb : breakOnSub observerSep (recordOf l₀) = none := by
      rw [observerSep_cons]
      exact breakOnSub_none_of_head_notMem
        (newline_notMem_recordOf (hgood l₀ (List.mem_cons_self l₀ [])))
    rw [replaceSub_of_none hb, commaJoined]
    simp
  | cons lit rest ih =>
    have hgood₀ := hgood l₀ (List.mem_cons_self l₀ (lit :: rest))
    have hgood' : ∀ l ∈ lit :: rest, ∀ d ∈ l, isLitChar d = true :=
      fun l hl => hgood l (List.mem_cons_of_mem l₀ hl)
    have hsh : recordOf l₀ ++ recsTail (lit :: rest) =
        recordOf l₀ ++ (observerSep ++ (recordOf lit ++ recsTail rest)) := by
      rw [recsTail, recsTail]
      simp [List.append_assoc]
    have hb : breakOnSub observerSep (recordOf l₀ ++
        (observerSep ++ (recordOf lit ++ recsTail rest))) =
        some (recordOf l₀, recordOf lit ++ recsTail rest) := by
      rw [observerSep_cons, breakOnSub_append_of_head_notMem _
        (newline_notMem_recordOf hgood₀), ← observerSep_cons,
        breakOnSub_self_append]
      simp
    rw [hsh, replaceSub_of_some observerSep_ne_nil hb, ih lit hgood']
    rw [commaJoined, commaJoined]
    simp [List.append_assoc]

theorem parseJString_cons_quote (rest : List Char) :
    parseJString ('"' :: rest) = some ([], rest) := by
  rw [parseJString.eq_def]
  dsimp only
  rw [if_pos rfl]

theorem parseJString_cons_plain {c : Char} {rest out rem : List Char}
    (hq : c ≠ '"') (hbs : c ≠ '\\') (h32 : ¬ c.toNat < 32)
    (hres : parseJString rest = some (out, rem)) :
    parseJString (c :: rest) = some (c :: out, rem) := by
  rw [parseJString.eq_def]
  dsimp only
  rw [if_neg hq, if_neg hbs, if_neg h32, hres]
  rfl

theorem parseJString_plain (content rest : List Char)
    (hgood : ∀ d ∈ content, d ≠ '"' ∧ d ≠ '\\' ∧ ¬ d.toNat < 32) :
    parseJString (content ++ '"' :: rest) = some (content, rest) := by
  induction content with
  | nil =>
    rw [List.nil_append, parseJString_cons_quote]
  | cons c content ih =>
    obtain ⟨hq, hbs, h32⟩ := hgood c (List.mem_cons_self c content)
    rw [List.cons_append]
    exact parseJString_cons_plain hq hbs h32
      (ih fun d hd => hgood d (List.mem_cons_of_mem c hd))

theorem skipWs_cons {c : Char} (l : List Char)
    (h : (c == ' ' || c == '\t' || c == '\n' || c == '\r') = false) :
    skipWs (c :: l) = c :: l := by
  rw [skipWs, h]
  simp

theorem parseJValue_str (f : Nat) (content rest : List Char)
    (hgood : ∀ d ∈ content, d ≠ '"' ∧ d ≠ '\\' ∧ ¬ d.toNat < 32) :
    parseJValue (f + 1) ('"' :: (content ++ '"' :: rest)) =
      some (Json.str content, rest) := by
  rw [parseJValue, skipWs_cons _ (by decide)]
  simp [parseJString_plain content rest hgood]

theorem parseJFields_value (f : Nat) (lit rest : List Char)
    (hlit : ∀ d ∈ lit, d ≠ '"' ∧ d ≠ '\\' ∧ ¬ d.toNat < 32) :
    parseJFields (f + 2)
      ('"' :: ("value".toList ++ '"' :: ':' :: '"' :: (lit ++ '"' :: '\x7d' :: rest))) =
      some ([("value".toList, Json.str lit)], rest) := by
  rw [show f + 2 = (f + 1) + 1 from rfl, parseJFields, skipWs_cons _ (by decide)]
  dsimp only
  rw [if_pos (by decide : (('"' : Char) == '"') = true)]
  rw [parseJString_plain _ _ (by decide)]
  dsimp only
  rw [skipWs_cons _ (by decide)]
  dsimp only
  rw [if_pos (by decide : ((':' : Char) == ':') = true)]
  rw [parseJValue_str f lit ('\x7d' :: rest) hlit]
  dsimp only
  rw [skipWs_cons _ (by decide)]
  dsimp only
  rw [if_neg (by decide : ¬ (('\x7d' : Char) == ',') = true),
    if_pos (by decide : (('\x7d' : Char) == '\x7d') = true)]

theorem parseJFields_unit_value (f : Nat) (lit rest : List Char)
    (hlit : ∀ d ∈ lit, d ≠ '"' ∧ d ≠ '\\' ∧ ¬ d.toNat < 32) :
    parseJFields (f + 3)
      ('"' :: ("unit".toList ++ '"' :: ':' :: '"' :: ("ms".toList ++ '"' :: ',' :: '"' ::
        ("value".toList ++ '"' :: ':' :: '"' :: (lit ++ '"' :: '\x7d' :: rest))))) =
      some ([("unit".toList, Json.str ("ms".toList)),
        ("value".toList, Json.str lit)], rest) := by
  rw [show f + 3 = (f + 2) + 1 from rfl, parseJFields, skipWs_cons _ (by decide)]
  dsimp only
  rw [if_pos (by decide : (('"' : Char) == '"') = true)]
  rw [parseJString_plain _ _ (by decide)]
  dsimp only
  rw [skipWs_cons _ (by decide)]
  dsimp only
  rw [if_pos (by decide : ((':' : Char) == ':') = true)]
  rw [show f + 2 = (f + 1) + 1 from rfl, parseJValue_str (f + 1) ("ms".toList)
    (',' :: '"' :: ("value".toList ++ '"' :: ':' :: '"' :: (lit ++ '"' :: '\x7d' :: rest)))
    (by decide)]
  dsimp only
  rw [skipWs_cons _ (by decide)]
  dsimp only
  rw [if_pos (by decide : ((',' : Char) == ',') = true)]
  rw [parseJFields_value f lit rest hlit]

theorem parseJValue_recordOf (f : Nat) (lit rest : List Char)
    (hgood : ∀ d ∈ lit, isLitChar d = true) :
    parseJValue (f + 4) (recordOf lit ++ rest) = some (recObjOf lit, rest) := by
  have hlit : ∀ d ∈ lit, d ≠ '"' ∧ d ≠ '\\' ∧ ¬ d.toNat < 32 := fun d hd =>
    ⟨(isLitChar_ne (hgood d hd)).2.2.1, (isLitChar_ne (hgood d hd)).2.2.2,
      isLitChar_ge32 (hgood d hd)⟩
  have hshape : recordOf lit ++ rest =
      '\x7b' :: '"' :: ("unit".toList ++ '"' :: ':' :: '"' :: ("ms".toList ++ '"' :: ',' :: '"' ::
        ("value".toList ++ '"' :: ':' :: '"' :: (lit ++ '"' :: '\x7d' :: rest)))) := by
    rw [recordOf]
    rw [show "\x7b\"unit\":\"ms\",\"value\":\"".toList =
      '\x7b' :: '"' :: ("unit".toList ++ '"' :: ':' :: '"' :: ("ms".toList ++ '"' :: ',' :: '"' ::
        ("value".toList ++ '"' :: ':' :: '"' :: []))) from by with_unfolding_all rfl]
    rw [show ("\"\x7d".toList : List Char) = '"' :: '\x7d' :: [] from by with_unfolding_all rfl]
    simp [List.append_assoc]
  rw [hshape]
  rw [show f + 4 = (f + 3) + 1 from rfl, parseJValue, skipWs_cons _ (by decide)]
  dsimp only
  rw [if_neg (by decide : ¬ (('\x7b' : Char) == '"') = true),
    if_neg (by decide : ¬ (('\x7b' : Char) == '[') = true),
    if_pos (by decide : (('\x7b' : Char) == '\x7b') = true)]
  rw [skipWs_cons _ (by decide)]
  dsimp only
  rw [if_neg (by decide : ¬ (('"' : Char) == '\x7d') = true)]
  rw [parseJFields_unit_value f lit rest hlit]
  simp [recObjOf]

theorem recordOf_length (lit : List Char) :
    (recordOf lit).length = lit.length + 24 := by
  have h1 : ("\x7b\"unit\":\"ms\",\"value\":\"".toList : List Char).length = 22 := by
    with_unfolding_all rfl
  have h2 : ("\"\x7d".toList : List Char).length = 2 := by
    with_unfolding_all rfl
  rw [recordOf]
  simp only [List.length_append, h1, h2]
  omega

theorem commaJoined_cons₂ (l₀ l₁ : List Char) (rest : List (List Char)) :
    commaJoined (l₀ :: l₁ :: rest) = recordOf l₀ ++ ',' :: commaJoined (l₁ :: rest) := by
  rw [commaJoined, commaJoined]
  simp [List.append_assoc]

theorem commaJoined_length_ge (l₀ : List Char) (lits : List (List Char)) :
    5 * (l₀ :: lits).length ≤ (commaJoined (l₀ :: lits)).length := by
  induction lits generalizing l₀ with
  | nil =>
    rw [commaJoined]
    simp only [List.map_nil, List.flatten_nil, List.append_nil,
      List.length_cons, List.length_nil, recordOf_length]
    omega
  | cons l₁ rest ih =>
    rw [commaJoined_cons₂]
    have h := ih l₁
    simp only [List.length_cons, List.length_append, recordOf_length] at h ⊢
    omega

theorem parseJItems_commaJoined (lits : List (List Char)) :
    ∀ (l₀ : List Char) (f : Nat) (tail : List Char),
    (∀ l ∈ l₀ :: lits, ∀ d ∈ l, isLitChar d = true) →
    parseJItems (f + 5 * (l₀ :: lits).length)
      (commaJoined (l₀ :: lits) ++ ']' :: tail) =
      some ((l₀ :: lits).map recObjOf, tail) := by
  induction lits with
  | nil =>
    intro l₀ f tail hgood
    have hc : commaJoined [l₀] = recordOf l₀ := by
      rw [commaJoined]
      simp
    have h1 : f + 5 * ([l₀] : List (List Char)).length = (f + 4) + 1 := by
      simp only [List.length_cons, List.length_nil]
    rw [hc, h1, parseJItems,
      parseJValue_recordOf f l₀ (']' :: tail) (hgood l₀ (List.mem_cons_self _ _))]
    dsimp only
    rw [skipWs_cons _ (by decide)]
    dsimp only
    rw [if_neg (by decide : ¬ (((']' : Char) == ',') = true)),
      if_pos (by decide : (((']' : Char) == ']') = true))]
    rfl
  | cons l₁ rest ih =>
    intro l₀ f tail hgood
    have hsh : commaJoined (l₀ :: l₁ :: rest) ++ ']' :: tail =
        recordOf l₀ ++ (',' :: (commaJoined (l₁ :: rest) ++ ']' :: tail)) := by
      rw [commaJoined_cons₂]
      simp [List.append_assoc]
    have h1 : f + 5 * (l₀ :: l₁ :: rest).length =
        ((f + 5 * (l₁ :: rest).length) + 4) + 1 := by
      simp only [List.length_cons]
      omega
    rw [hsh, h1, parseJItems,
      parseJValue_recordOf (f + 5 * (l₁ :: rest).length) l₀ _
        (hgood l₀ (List.mem_cons_self _ _))]
    dsimp only
    rw [skipWs_cons _ (by decide)]
    dsimp only
    rw [if_pos (by decide : (((',' : Char) == ',') = true))]
    rw [show (f + 5 * (l₁ :: rest).length) + 4 = (f + 4) + 5 * (l₁ :: rest).length
      from by omega]
    rw [ih l₁ (f + 4) tail (fun l hl => hgood l (List.mem_cons_of_mem l₀ hl))]
    rfl

theorem commaJoined_head (l₀ : List Char) (lits : List (List Char)) :
    ∃ t, commaJoined (l₀ :: lits) = '\x7b' :: t :=
  ⟨"\"unit\":\"ms\",\"value\":\"".toList ++
      (l₀ ++ ("\"\x7d".toList ++ (lits.map fun l => ',' :: recordOf l).flatten)), by
    rw [commaJoined, recordOf]
    rw [show ("\x7b\"unit\":\"ms\",\"value\":\"".toList : List Char) =
      '\x7b' :: "\"unit\":\"ms\",\"value\":\"".toList from by with_unfolding_all rfl]
    simp [List.append_assoc]⟩

theorem parseJValue_arr (f : Nat) (l₀ : List Char) (lits : List (List Char))
    (tail : List Char)
    (hgood : ∀ l ∈ l₀ :: lits, ∀ d ∈ l, isLitChar d = true) :
    parseJValue ((f + 5 * (l₀ :: lits).length) + 1)
      ('[' :: (commaJoined (l₀ :: lits) ++ ']' :: tail)) =
      some (Json.arr ((l₀ :: lits).map recObjOf), tail) := by
  obtain ⟨t, ht⟩ := commaJoined_head l₀ lits
  have hsh : commaJoined (l₀ :: lits) ++ ']' :: tail = '\x7b' :: (t ++ ']' :: tail) := by
    rw [ht]
    rfl
  rw [parseJValue, skipWs_cons _ (by decide)]
  dsimp only
  rw [if_neg (by decide : ¬ ((('[' : Char) == '"') = true)),
    if_pos (by decide : ((('[' : Char) == '[') = true))]
  rw [hsh, skipWs_cons _ (by decide)]
  dsimp only
  rw [if_neg (by decide : ¬ ((('\x7b' : Char) == ']') = true))]
  rw [← hsh]
  rw [parseJItems_commaJoined lits l₀ f tail hgood]

theorem json_loads_commaJoined (l₀ : List Char) (lits : List (List Char))
    (hgood : ∀ l ∈ l₀ :: lits, ∀ d ∈ l, isLitChar d = true) :
    json_loads ('[' :: (commaJoined (l₀ :: lits) ++ [']'])) =
      some (Json.arr ((l₀ :: lits).map recObjOf)) := by
  have hlen := commaJoined_length_ge l₀ lits
  obtain ⟨f, hf⟩ := Nat.exists_eq_add_of_le hlen
  have hL : ('[' :: (commaJoined (l₀ :: lits) ++ [']'])).length + 1 =
      ((f + 2) + 5 * (l₀ :: lits).length) + 1 := by
    simp only [List.length_cons, List.length_append, List.length_nil] at hf ⊢
    omega
  rw [json_loads, hL, parseJValue_arr (f + 2) l₀ lits [] hgood]
  rfl

theorem decodeRecords_build (l₀ : List Char) (lits : List (List Char))
    (hgood : ∀ l ∈ l₀ :: lits, ∀ d ∈ l, isLitChar d = true) :
    decodeRecords (recordOf l₀ ++ recsTail lits) =
      Except.ok ((l₀ :: lits).map recObjOf) := by
  have harr : reconstructArray (recordOf l₀ ++ recsTail lits) =
      '[' :: (commaJoined (l₀ :: lits) ++ [']']) := by
    rw [reconstructArray, replaceSub_commaJoined l₀ lits hgood]
  rw [decodeRecords, harr, json_loads_commaJoined l₀ lits hgood]

theorem cr_notMem_recsTail (lits : List (List Char))
    (hgood : ∀ lit ∈ lits, ∀ d ∈ lit, isLitChar d = true) :
    '\r' ∉ recsTail lits := by
  induction lits with
  | nil =>
    rw [recsTail]
    simp
  | cons lit rest ih =>
    rw [recsTail]
    simp only [List.map_cons, List.flatten_cons, List.mem_append]
    intro hmem
    rcases hmem with h | h
    · rcases h with h' | h'
      · exact absurd h' (by with_unfolding_all decide)
      · exact cr_notMem_recordOf (hgood lit (List.mem_cons_self _ _)) h'
    · exact ih (fun l hl => hgood l (List.mem_cons_of_mem _ hl))
        (show '\r' ∈ recsTail rest from by rw [recsTail]; exact h)

theorem cr_notMem_build (lits : List (List Char))
    (hgood : ∀ lit ∈ lits, ∀ d ∈ lit, isLitChar d = true) :
    '\r' ∉ buildProfilerOutput lits := by
  rw [buildProfilerOutput]
  intro hmem
  rcases List.mem_append.mp hmem with h | h
  · rcases List.mem_append.mp h with h' | h'
    · exact absurd h' (by with_unfolding_all decide)
    · exact cr_notMem_recsTail lits hgood h'
  · exact absurd h (by with_unfolding_all decide)

theorem pyGetKey_rec_unit (lit : List Char) :
    pyGetKey (recObjOf lit) unitKey = Except.ok (Json.str ("ms".toList)) := by
  with_unfolding_all rfl

theorem pyGetKey_rec_value (lit : List Char) :
    pyGetKey (recObjOf lit) valueKey = Except.ok (Json.str lit) := by
  with_unfolding_all rfl

theorem recordValues_map (lits : List (List Char)) :
    ∀ (qs : List ℚ),
    List.Forall₂ (fun lit q => parseFloatLit lit = some q) lits qs →
    recordValues (lits.map recObjOf) = Except.ok qs := by
  induction lits with
  | nil =>
    intro qs h
    cases h
    rfl
  | cons lit rest ih =>
    intro qs h
    cases h with
    | cons hlq hrest =>
      rename_i q qs'
      have htail : recordValues (rest.map recObjOf) = Except.ok qs' := ih qs' hrest
      have hf : (pyGetKey (recObjOf lit) valueKey >>= pyFloat) = Except.ok q := by
        rw [pyGetKey_rec_value]
        simp only [Bind.bind, Except.bind]
        rw [pyFloat, hlq]
      rw [recordValues] at htail ⊢
      rw [List.map_cons, List.mapM_cons]
      exact exceptBind_ok.mpr ⟨q, hf, exceptBind_ok.mpr ⟨qs', htail, rfl⟩⟩

theorem allUnits_map (lits : List (List Char)) :
    allUnits (Json.str ("ms".toList)) (lits.map recObjOf) := by
  intro r hr
  obtain ⟨lit, _, rfl⟩ := List.mem_map.mp hr
  exact ⟨Json.str ("ms".toList), pyGetKey_rec_unit lit, pyEq_refl _⟩

/-! ## Claim C2 -/

/-- C2: the round trip.  For every `K ≥ 1` value literals `l₀ :: lits` made
of plain numeric-literal characters whose `float(...)` values are
`q₀ :: qs`, the synthetic output that formats one `PyTorchObserver` record
of unit `"ms"` per value under the exact marker grammar parses to the
summary whose unit is `"ms"`, whose `avg` is the arithmetic mean of the
values, and whose `std` is their population standard deviation. -/
theorem round_trip (l₀ : List Char) (lits : List (List Char))
    (q₀ : ℚ) (qs : List ℚ)
    (hgood : ∀ lit ∈ l₀ :: lits, ∀ d ∈ lit, isLitChar d = true)
    (hq : List.Forall₂ (fun lit q => parseFloatLit lit = some q)
      (l₀ :: lits) (q₀ :: qs)) :
    parse_profiler_output (buildProfilerOutput (l₀ :: lits)) =
      Except.ok ⟨Json.str ("ms".toList), mean (q₀ :: qs), popVar (q₀ :: qs)⟩ ∧
    ProfileSummary.std
        ⟨Json.str ("ms".toList), mean (q₀ :: qs), popVar (q₀ :: qs)⟩ =
      popStd (q₀ :: qs) := by
  refine ⟨?_, rfl⟩
  have hcr : removeCR (buildProfilerOutput (l₀ :: lits)) =
      buildProfilerOutput (l₀ :: lits) :=
    removeCR_of_notMem (cr_notMem_build (l₀ :: lits) hgood)
  have h1 : mainSection (removeCR (buildProfilerOutput (l₀ :: lits))) =
      Except.ok (recordOf l₀ ++ recsTail lits) := by
    rw [hcr]
    exact mainSection_build l₀ lits hgood
  rw [parse_of_stages h1 (decodeRecords_build l₀ lits hgood)]
  refine summarize_of_ok ?_ (pyGetKey_rec_unit l₀) ?_
  · simp
  · exact collectLatencies_of_allUnits (allUnits_map (l₀ :: lits))
      (recordValues_map (l₀ :: lits) (q₀ :: qs) hq)

/-- Witness for `round_trip` at the spec's worked example: literals `"1.0"`
and `"3.0"`, values `1` and `3`. -/
theorem round_trip_witness :
    parse_profiler_output (buildProfilerOutput ["1.0".toList, "3.0".toList]) =
      Except.ok ⟨Json.str ("ms".toList), mean [1, 3], popVar [1, 3]⟩ ∧
    ProfileSummary.std ⟨Json.str ("ms".toList), mean [1, 3], popVar [1, 3]⟩ =
      popStd [1, 3] :=
  round_trip ("1.0".toList) ["3.0".toList] 1 [3]
    (by with_unfolding_all decide)
    (List.Forall₂.cons (by with_unfolding_all rfl)
      (List.Forall₂.cons (by with_unfolding_all rfl) List.Forall₂.nil))

theorem take_append_of_le {a : List Char} (b : List Char) {n : Nat}
    (h : a.length ≤ n) : (a ++ b).take n = a ++ b.take (n - a.length) := by
  rw [List.take_append_eq_append_take, List.take_of_length_le h]

theorem append_eq_append_of_le {a b c d : List Char}
    (h : a ++ b = c ++ d) (hlen : c.length ≤ a.length) :
    ∃ w, a = c ++ w := by
  refine ⟨a.drop c.length, ?_⟩
  have h2 := congrArg (List.take c.length) h
  rw [List.take_append_eq_append_take, Nat.sub_eq_zero_of_le hlen, List.take_zero,
    List.append_nil, List.take_left] at h2
  conv_lhs => rw [← List.take_append_drop c.length a, h2]

theorem getElem?_mid {x y z : List Char} {i : Nat} (h1 : x.length ≤ i)
    (h2 : i - x.length < y.length) :
    (x ++ (y ++ z))[i]? = y[i - x.length]? := by
  rw [List.getElem?_append_right h1, List.getElem?_append_left h2]

theorem runFinishedMarker_length : runFinishedMarker.length = 19 := by
  with_unfolding_all rfl

theorem observerDelim_length : observerDelim.length = 27 := by
  with_unfolding_all rfl

/-- Inside `'\nMain run finished.'`, only the first character is a newline. -/
theorem runFinishedMarker_no_newline :
    ∀ j, j < 19 → 1 ≤ j → runFinishedMarker[j]? ≠ some '\n' := by decide

/-- Among the first eight characters of `'\nMain runs.\nPyTorchObserver'`,
only the first is a newline (the second newline sits at index 11). -/
theorem observerDelim_no_newline :
    ∀ j, j < 8 → 1 ≤ j → observerDelim[j]? ≠ some '\n' := by decide

theorem observerDelim_idx0 : observerDelim[0]? = some '\n' := by decide

theorem runFinishedMarker_idx0 : runFinishedMarker[0]? = some '\n' := by decide

theorem observerDelim_idx9 : observerDelim[9]? = some 's' := by decide

theorem runFinishedMarker_idx9 : runFinishedMarker[9]? = some ' ' := by decide

/-- The heart of trailing-text insensitivity.  When the first delimiter does
not reoccur in `post` but the finish marker does, appending `u` cannot move
the part of `post` before the first finish marker: a new first-delimiter
occurrence in `post ++ u` must start at least 19 characters after the finish
marker starts, because no proper suffix of either marker that reaches the
end of `post` can be extended into a first-delimiter occurrence that starts
before the finish marker ends. -/
theorem takeUntil_stable {post u p' q' pf sf : List Char}
    (hb : breakOnSub observerDelim post = none)
    (hrf : breakOnSub runFinishedMarker post = some (pf, sf))
    (hq : breakOnSub observerDelim (post ++ u) = some (p', q')) :
    takeUntil runFinishedMarker p' = pf := by
  have hRFlen := runFinishedMarker_length
  have hODlen := observerDelim_length
  have hnone := (breakOnSub_none_iff observerDelim_ne_nil).mp hb
  have hP1 : post = pf ++ runFinishedMarker ++ sf := breakOnSub_eq_append hrf
  have hNP : pf.length + 19 ≤ post.length := by
    have hl := congrArg List.length hP1
    simp only [List.length_append] at hl
    omega
  have hS1' : post ++ u = p' ++ (observerDelim ++ q') := by
    rw [breakOnSub_eq_append hq]
    simp [List.append_assoc]
  have hS2 : post ++ u = pf ++ (runFinishedMarker ++ (sf ++ u)) := by
    rw [hP1]
    simp [List.append_assoc]
  have hL : pf.length + 19 ≤ p'.length := by
    by_contra hlt
    push_neg at hlt
    by_cases h27 : p'.length + 27 ≤ post.length
    · have h2 := congrArg (List.take post.length) hS1'
      rw [List.take_left, take_append_of_le _ (by omega),
        take_append_of_le _ (by omega)] at h2
      exact hnone p'
        (q'.take (post.length - p'.length - observerDelim.length))
        (by rw [h2]; simp [List.append_assoc])
    · push_neg at h27
      rcases Nat.lt_trichotomy p'.length pf.length with hc | hc | hc
      · have h1 : (post ++ u)[pf.length]? = some '\n' := by
          rw [hS2, getElem?_mid (Nat.le_refl _) (by omega)]
          rw [Nat.sub_self, runFinishedMarker_idx0]
        have h2 : (post ++ u)[pf.length]? =
            observerDelim[pf.length - p'.length]? := by
          rw [hS1', getElem?_mid (Nat.le_of_lt hc) (by omega)]
        exact observerDelim_no_newline (pf.length - p'.length)
          (by omega) (by omega) (h2.symm.trans h1)
      · have h1 : (post ++ u)[pf.length + 9]? = some ' ' := by
          rw [hS2, getElem?_mid (Nat.le_add_right _ _) (by omega)]
          rw [Nat.add_sub_cancel_left, runFinishedMarker_idx9]
        have h2 : (post ++ u)[pf.length + 9]? = some 's' := by
          rw [hS1', getElem?_mid (by omega) (by omega)]
          rw [show pf.length + 9 - p'.length = 9 from by omega, observerDelim_idx9]
        exact absurd (h1.symm.trans h2) (by decide)
      · have h1 : (post ++ u)[p'.length]? = some '\n' := by
          rw [hS1', getElem?_mid (Nat.le_refl _) (by omega)]
          rw [Nat.sub_self, observerDelim_idx0]
        have h2 : (post ++ u)[p'.length]? =
            runFinishedMarker[p'.length - pf.length]? := by
          rw [hS2, getElem?_mid (Nat.le_of_lt hc) (by omega)]
        exact runFinishedMarker_no_newline (p'.length - pf.length)
          (by omega) (by omega) (h2.symm.trans h1)
  obtain ⟨w, hw⟩ := append_eq_append_of_le
    (show p' ++ (observerDelim ++ q') = (pf ++ runFinishedMarker) ++ (sf ++ u) from by
      rw [← hS1', hS2]
      simp [List.append_assoc])
    (by simp only [List.length_append]; omega)
  have hsome : ∃ pre₃ post₃,
      breakOnSub runFinishedMarker p' = some (pre₃, post₃) := by
    rcases hopt : breakOnSub runFinishedMarker p' with _ | ⟨pre₃, post₃⟩
    · exact absurd hw
        ((breakOnSub_none_iff runFinishedMarker_ne_nil).mp hopt pf w)
    · exact ⟨pre₃, post₃, rfl⟩
  obtain ⟨pre₃, post₃, h3⟩ := hsome
  have hd3 : p' = pre₃ ++ runFinishedMarker ++ post₃ := breakOnSub_eq_append h3
  have hmin1 : pre₃.length ≤ pf.length := breakOnSub_min h3 pf w hw
  have h2 := congrArg (List.take post.length)
    (show post ++ u = pre₃ ++ (runFinishedMarker ++ (post₃ ++ (observerDelim ++ q')))
      from by rw [hS1', hd3]; simp [List.append_assoc])
  rw [List.take_left, take_append_of_le _ (by omega),
    take_append_of_le _ (by omega)] at h2
  have hmin2 : pf.length ≤ pre₃.length :=
    breakOnSub_min hrf pre₃
      ((post₃ ++ (observerDelim ++ q')).take
        (post.length - pre₃.length - runFinishedMarker.length))
      (by rw [h2]; simp [List.append_assoc])
  have hpw : pre₃ ++ (runFinishedMarker ++ post₃) =
      pf ++ (runFinishedMarker ++ w) := by
    rw [← List.append_assoc, ← hd3, hw]
    simp [List.append_assoc]
  have hpre_eq : pre₃ = pf :=
    (List.append_inj hpw (Nat.le_antisymm hmin1 hmin2)).1
  rw [takeUntil_of_some h3, hpre_eq]

/-- Appending text cannot change the doubly-truncated main section once the
section is terminated by a finish-marker occurrence. -/
theorem takeUntil_section_append (post u : List Char)
    (hterm : containsSub runFinishedMarker (takeUntil observerDelim post) = true) :
    takeUntil runFinishedMarker (takeUntil observerDelim (post ++ u)) =
      takeUntil runFinishedMarker (takeUntil observerDelim post) := by
  cases bp : breakOnSub observerDelim post with
  | some pr =>
    obtain ⟨pre₂, post₂⟩ := pr
    rw [takeUntil_of_some bp, takeUntil_of_some (breakOnSub_append_some u bp)]
  | none =>
    rw [takeUntil_of_none bp] at hterm ⊢
    have hrf : ∃ pf sf, breakOnSub runFinishedMarker post = some (pf, sf) := by
      rcases hopt : breakOnSub runFinishedMarker post with _ | ⟨pf, sf⟩
      · rw [containsSub, hopt] at hterm
        simp at hterm
      · exact ⟨pf, sf, rfl⟩
    obtain ⟨pf, sf, hrf⟩ := hrf
    rw [takeUntil_of_some hrf]
    cases bq : breakOnSub observerDelim (post ++ u) with
    | none =>
      rw [takeUntil_of_none bq, takeUntil_of_some (breakOnSub_append_some u hrf)]
    | some qr =>
      obtain ⟨p', q'⟩ := qr
      rw [takeUntil_of_some bq]
      exact takeUntil_stable bp hrf bq

/-- A successful extraction whose section is finish-marker-terminated is
unchanged by appended text. -/
theorem mainSection_append {data sec : List Char} (u : List Char)
    (hterm : ∃ md, (splitOnL observerDelim data)[1]? = some md ∧
      containsSub runFinishedMarker md = true)
    (hs : mainSection data = Except.ok sec) :
    mainSection (data ++ u) = Except.ok sec := by
  cases hm : containsSub mainRunsMarker data with
  | false =>
    rw [mainSection_of_marker_false hm] at hs
    simp at hs
  | true =>
    cases hb : breakOnSub observerDelim data with
    | none =>
      rw [mainSection_of_delim_none hm hb] at hs
      simp at hs
    | some pr =>
      obtain ⟨pre, post⟩ := pr
      rw [mainSection_of_delim_some hm hb] at hs
      injection hs with hsec
      obtain ⟨md, hmd, hcont⟩ := hterm
      rw [splitOnL_idx1 observerDelim_ne_nil, hb] at hmd
      simp only [Option.map_some', Option.some.injEq] at hmd
      rw [mainSection_of_delim_some (containsSub_append u hm)
        (breakOnSub_append_some u hb)]
      rw [takeUntil_section_append post u (by rw [hmd]; exact hcont), hsec]

/-! ## Claim C9 -/

/-- C9: trailing-text insensitivity.  Whenever the parser succeeds on `s`
and the extracted main section of `s` is terminated by an occurrence of
`'\nMain run finished.'` (rather than by the end of the input), appending
any text `t` leaves the result unchanged: the second split discards
everything after the finish marker, and a new first-delimiter occurrence
created by the appended text can only start after that marker. -/
theorem parse_append_insensitive (s t : List Char) (r : ProfileSummary)
    (hterm : finishMarkerTerminated s)
    (hok : parse_profiler_output s = Except.ok r) :
    parse_profiler_output (s ++ t) = Except.ok r := by
  rw [parse_profiler_output, extractRecords] at hok
  obtain ⟨rs, hrs, hsum⟩ := exceptBind_ok.mp hok
  obtain ⟨sec, hsec, hdec⟩ := exceptBind_ok.mp hrs
  have hsec' : mainSection (removeCR (s ++ t)) = Except.ok sec := by
    rw [removeCR_append]
    exact mainSection_append (removeCR t) hterm hsec
  rw [parse_of_stages hsec' hdec]
  exact hsum

/-- Witness for `parse_append_insensitive` at the one-record example with
trailing junk appended after the finish marker. -/
theorem parse_append_insensitive_witness :
    finishMarkerTerminated
      ("\nMain runs.\nPyTorchObserver\x7b\"unit\":\"ms\",\"value\":\"1.0\"\x7d\nMain run finished.\n".toList) ∧
    parse_profiler_output
      ("\nMain runs.\nPyTorchObserver\x7b\"unit\":\"ms\",\"value\":\"1.0\"\x7d\nMain run finished.\n".toList) =
      Except.ok ⟨Json.str ("ms".toList), 1, 0⟩ ∧
    parse_profiler_output
      ("\nMain runs.\nPyTorchObserver\x7b\"unit\":\"ms\",\"value\":\"1.0\"\x7d\nMain run finished.\n".toList ++
        "unrelated trailing text\n".toList) =
      Except.ok ⟨Json.str ("ms".toList), 1, 0⟩ :=
  ⟨⟨"\x7b\"unit\":\"ms\",\"value\":\"1.0\"\x7d\nMain run finished.\n".toList,
      by with_unfolding_all rfl, by with_unfolding_all rfl⟩,
    by with_unfolding_all rfl,
    parse_append_insensitive _ _ _
      ⟨"\x7b\"unit\":\"ms\",\"value\":\"1.0\"\x7d\nMain run finished.\n".toList,
        by with_unfolding_all rfl, by with_unfolding_all rfl⟩
      (by with_unfolding_all rfl)⟩
